import Mathlib

/-!
Verification of `process_geotagged_photos.py`.

The development shallowly embeds the program: the pure helpers
`dms_to_dd` and `parse_image_description` become Lean functions over `ℚ`
and character lists; the grouped GeoPackage merge engine
(`import_geotagged_photos_to_points`) becomes explicit state passing over
an in-memory data-frame model (`Frame`), with pandas/GeoPandas cells
modelled as `Option Val` (`none` is a missing value / NaN) and rows as
association lists keyed by column name.  File I/O is modelled by a store
map keyed by output path; a raised `ValueError` becomes `Except`.
-/

set_option maxRecDepth 4000

/-- Cell payloads that occur in the script: strings, numbers
(floats modelled exactly as rationals), 2D/3D shapely points, and the
transient `parsed_dict` python dictionary. -/
inductive Val where
  | str (s : String)
  | num (q : ℚ)
  | pt (x y : ℚ) (z : Option ℚ)
  | dict (d : List (String × String))
  deriving DecidableEq

/-- A data-frame cell: `none` models NaN / missing / Python `None`. -/
abbrev Cell := Option Val

/-- A row is an association list from column name to cell, mirroring both
the Python record dictionaries and data-frame rows. -/
abbrev Row := List (String × Cell)

/-- Python dict assignment `d[k] = v`: update in place if the key exists
(keeping its position, as Python dicts do), else append. -/
def dictInsert {α : Type} (d : List (String × α)) (k : String) (v : α) :
    List (String × α) :=
  match d with
  | [] => [(k, v)]
  | (k1, v1) :: rest =>
    if k1 = k then (k, v) :: rest else (k1, v1) :: dictInsert rest k v

/-- Python dict lookup `d[k]` / `k in d` (first matching key). -/
def dictLookup {α : Type} (d : List (String × α)) (k : String) : Option α :=
  match d with
  | [] => none
  | (k1, v1) :: rest => if k1 = k then some v1 else dictLookup rest k

/-- Cell of a row at a column; a key absent from the row reads as NaN,
matching a data frame padded with missing values. -/
def getC (r : Row) (c : String) : Cell := (dictLookup r c).getD none

/-- Write a cell of a row at a column. -/
def setC (r : Row) (c : String) (v : Cell) : Row := dictInsert r c v

/-- `str.lower()` (ASCII case folding, as used by the script). -/
def lowerStr (s : String) : String := ⟨s.data.map Char.toLower⟩

/-! ### `parse_image_description` (source lines 20–41)

Python string primitives are embedded over `List Char`:
`split(';')`, `strip()` and `split('-', 1)`. -/

/-- Whitespace stripped by Python `str.strip()` (ASCII range). -/
def isSpace (c : Char) : Bool :=
  c.toNat = 32 || c.toNat = 9 || c.toNat = 10 ||
  c.toNat = 13 || c.toNat = 11 || c.toNat = 12

/-- `s.split(sep)` for a one-character separator, Python semantics:
`"".split(sep) = [""]`, empty segments kept. -/
def splitOnCh (c : Char) : List Char → List (List Char)
  | [] => [[]]
  | x :: xs =>
    match splitOnCh c xs with
    | [] => [[]]
    | seg :: rest => if x = c then [] :: seg :: rest else (x :: seg) :: rest

/-- `s.strip()`. -/
def stripList (l : List Char) : List Char :=
  ((l.dropWhile isSpace).reverse.dropWhile isSpace).reverse

/-- `os.path.basename`: the part of the path after the last slash. -/
def basename (s : String) : String := ⟨(splitOnCh '/' s.data).getLastD []⟩

/-- `s.split(sep, 1)` outcome: `none` when the separator is absent,
otherwise the parts before and after its first occurrence. -/
def splitFirst (c : Char) : List Char → Option (List Char × List Char)
  | [] => none
  | x :: xs =>
    if x = c then some ([], xs)
    else (splitFirst c xs).map (fun p => (x :: p.1, p.2))

/-- `parse_image_description` (source lines 20–41): split the description
on every semicolon, strip each segment, drop empty segments, split each
remaining segment on the first dash only (dash-less segments dropped),
strip key and value, and assign into the result dict (later key wins). -/
def parse_image_description (description : Option String) :
    List (String × String) :=
  match description with
  | none => []
  | some s =>
    if s = "" then []
    else
      (splitOnCh ';' s.data).foldl
        (fun acc seg =>
          let seg := stripList seg
          if seg = [] then acc
          else
            match splitFirst '-' seg with
            | some (k, v) =>
              dictInsert acc ⟨stripList k⟩ ⟨stripList v⟩
            | none => acc)
        []

/-! ### `dms_to_dd` (source lines 9–18) -/

/-- `dms_to_dd`: degrees/minutes/seconds plus hemisphere reference to
signed decimal degrees (float arithmetic modelled exactly over `ℚ`). -/
def dms_to_dd (dms : ℚ × ℚ × ℚ) (ref : String) : ℚ :=
  let dd := dms.1 + dms.2.1 / 60 + dms.2.2 / 3600
  if ref ∈ ["S", "W"] then -dd else dd

/-! ### Photos and record building (source lines 81–135)

A `Photo` is the EXIF interface of one image file: exactly the
attributes the script reads via `hasattr`/`getattr`, each `Option`al
when the script supplies a default or checks presence. -/

structure Photo where
  path : String
  has_exif : Bool
  gps_latitude : Option (ℚ × ℚ × ℚ)
  gps_latitude_ref : Option String
  gps_longitude : Option (ℚ × ℚ × ℚ)
  gps_longitude_ref : Option String
  /-- either a plain decimal or a (numerator, denominator) ratio tuple -/
  gps_altitude : Option (ℚ ⊕ (ℚ × ℚ))
  image_description : Option String
  datetime_original : Option String
  orientation : Option ℚ
  deriving DecidableEq

/-- The two `ValueError`s the script can raise, carrying the data
interpolated into their messages. -/
inductive PipelineError where
  /-- allow-list violation (source lines 109–113): group value, photo path -/
  | invalidFolderValue (group_value : String) (photo_path : String)
  /-- schema mismatch (source lines 196–201): metadata key, gpkg path -/
  | unknownMetaKey (key : String) (gpkg_path : String)
  deriving DecidableEq

/-- A candidate point record is the Python dict of source lines 115–128. -/
abbrev Record := Row

/-- `{k.lower(): v for k, v in parse_image_description(d).items()}`
(source line 95): dict comprehension with later case-colliding key
winning. -/
def foldedDesc (description : Option String) : List (String × String) :=
  (parse_image_description description).foldl
    (fun acc kv => dictInsert acc (lowerStr kv.1) kv.2) []

/-- The record dict literal of source lines 115–128, built with Python
dict-assignment semantics (so a `final_key` equal to a fixed field name
overwrites that field in place, as the dict literal does). -/
def mkRecord (final_key : String) (p : Photo) (lat lon : ℚ)
    (alt : Option ℚ) (group_value : String)
    (desc_dict : List (String × String)) : Record :=
  let base : Record :=
    [("filename", some (.str (basename p.path))),
     ("latitude", some (.num lat)),
     ("longitude", some (.num lon)),
     ("altitude", alt.map .num),
     ("image_description", p.image_description.map .str),
     ("create_date", p.datetime_original.map .str),
     ("orientation", p.orientation.map .num),
     ("geometry", some (.pt lon lat alt))]
  dictInsert (dictInsert base final_key (some (.str group_value)))
    "parsed_dict" (some (.dict desc_dict))

/-- One iteration of the photo loop (source lines 81–131): `.ok none` is
a non-fatal skip (no GPS EXIF, or grouping key absent from the folded
metadata), `.error` is the fatal allow-list `ValueError`, `.ok (some r)`
appends a record. -/
def buildRecord (final_key : String) (valid : Option (List String))
    (p : Photo) : Except PipelineError (Option Record) :=
  match p.has_exif, p.gps_latitude, p.gps_longitude with
  | true, some latDms, some lonDms =>
    let lat := dms_to_dd latDms (p.gps_latitude_ref.getD "N")
    let lon := dms_to_dd lonDms (p.gps_longitude_ref.getD "E")
    let alt : Option ℚ :=
      match p.gps_altitude with
      | some (.inl q) => some q
      | some (.inr nd) => some (nd.1 / nd.2)
      | none => none
    let desc_dict := foldedDesc p.image_description
    match dictLookup desc_dict final_key with
    | none => .ok none
    | some group_value =>
      match valid with
      | some vs =>
        if group_value ∈ vs then
          .ok (some (mkRecord final_key p lat lon alt group_value desc_dict))
        else .error (.invalidFolderValue group_value p.path)
      | none =>
        .ok (some (mkRecord final_key p lat lon alt group_value desc_dict))
  | _, _, _ => .ok none

/-- The whole photo loop: sequential, the first raised error aborts. -/
def buildRecords (final_key : String) (valid : Option (List String)) :
    List Photo → Except PipelineError (List Record)
  | [] => .ok []
  | p :: ps =>
    match buildRecord final_key valid p with
    | .error e => .error e
    | .ok r =>
      match buildRecords final_key valid ps with
      | .error e => .error e
      | .ok rest =>
        match r with
        | some rec => .ok (rec :: rest)
        | none => .ok rest

/-- The group routing key `record[final_key]` (source line 140). -/
def groupKey (final_key : String) (r : Record) : Cell := getC r final_key

/-- `grouped_records[g]` (source lines 138–140): the group's records in
input order. -/
def groupOf (final_key : String) (records : List Record) (g : Cell) :
    List Record :=
  records.filter (fun r => groupKey final_key r = g)

/-- Deduplication keeping first occurrences; used wherever the script
iterates a Python `set` (whose order is unspecified) to fix one
deterministic order. -/
def dedupFirst {α : Type} [DecidableEq α] : List α → List α :=
  go []
where
  go (seen : List α) : List α → List α
    | [] => []
    | x :: xs => if x ∈ seen then go seen xs else x :: go (x :: seen) xs

/-! ### The data-frame model

`Frame` models a (Geo)DataFrame: an ordered column-label list (labels
may repeat, as pandas allows) plus rows as association lists; a missing
key in a row reads as NaN. -/

structure Frame where
  cols : List String
  rows : List Row
  deriving DecidableEq

instance : Inhabited Frame := ⟨⟨[], []⟩⟩

/-- `df.empty`: true when either axis has length zero. -/
def Frame.isEmpty (f : Frame) : Bool := f.rows.isEmpty || f.cols.isEmpty

/-- `df.loc[i, c] = v`: write one cell; a new column label is appended
(other rows read NaN there), as pandas `.loc` does. -/
def Frame.locSet (f : Frame) (i : Nat) (c : String) (v : Cell) : Frame :=
  { cols := if f.cols.contains c then f.cols else f.cols ++ [c],
    rows := f.rows.set i (setC (f.rows.getD i []) c v) }

/-- `df[canon] = df[canon].fillna(df[variant])` (source line 179). -/
def Frame.fillnaFrom (f : Frame) (canon variant : String) : Frame :=
  { f with
    rows := f.rows.map
        (fun r => setC r canon ((getC r canon).orElse (fun _ => getC r variant))) }

/-- `df.drop(columns=[c])` (source lines 181, 232). -/
def Frame.dropCol (f : Frame) (c : String) : Frame :=
  { cols := f.cols.filter (fun c1 => c1 ≠ c),
    rows := f.rows.map (fun r => r.filter (fun kv => kv.1 ≠ c)) }

/-- `df.rename(columns=m)` (source line 186). -/
def Frame.renameCols (f : Frame) (m : List (String × String)) : Frame :=
  { cols := f.cols.map (fun c => (dictLookup m c).getD c),
    rows := f.rows.map (fun r => r.map (fun kv => ((dictLookup m kv.1).getD kv.1, kv.2))) }

/-- `df[c] = None` (source line 211): add/overwrite a whole column. -/
def Frame.addColNone (f : Frame) (c : String) : Frame :=
  { cols := if f.cols.contains c then f.cols else f.cols ++ [c],
    rows := f.rows.map (fun r => setC r c none) }

/-- `df.reindex(columns=cs)` (source lines 237–238): keep matching
columns, pad the rest with NaN. -/
def Frame.reindex (f : Frame) (cs : List String) : Frame :=
  { cols := cs,
    rows := f.rows.map (fun r => cs.map (fun c => (c, getC r c))) }

/-- `gpd.GeoDataFrame(records)` (source line 204): columns are the union
of the record dicts' keys in first-seen order; rows are the dicts. -/
def frameOfRecords (records : List Record) : Frame :=
  { cols := dedupFirst ((records.map (fun r => r.map Prod.fst)).flatten),
    rows := records }

/-! ### Schema reconciliation (source lines 169–188) -/

/-- One iteration of the collision loop (source lines 173–183):
`origCols` is the `existing_columns` list captured before the loop, the
accumulator carries the mutating frame and the `renamed_cols` dict. -/
def reconStep (final_key : String) (origCols : List String)
    (acc : Frame × List (String × String)) (col : String) :
    Frame × List (String × String) :=
  if lowerStr col = final_key ∧ col ≠ final_key then
    if final_key ∈ origCols then
      ((acc.1.fillnaFrom final_key col).dropCol col, acc.2)
    else
      (acc.1, dictInsert acc.2 col final_key)
  else acc

/-- The case-collision loop plus conditional rename of source lines
169–188, run on an existing frame.  Returns the mutated frame together
with the `existing_columns` variable as the script leaves it: refreshed
only when `renamed_cols` is non-empty (so after a fillna-and-drop pass it
still lists the dropped variants, exactly as in the source). -/
def reconcile (final_key : String) (f : Frame) : Frame × List String :=
  let step := f.cols.foldl (reconStep final_key f.cols) (f, [])
  if step.2 = [] then (step.1, f.cols)
  else
    let g := step.1.renameCols step.2
    (g, g.cols)

/-- Reconciliation applied to the optional existing store; an absent (or
unreadable, source lines 161–167) store contributes no columns. -/
def reconcileStep (final_key : String) (existing : Option Frame) :
    Option Frame × List String :=
  match existing with
  | none => (none, [])
  | some f =>
    let p := reconcile final_key f
    (some p.1, p.2)

/-! ### Schema validation and the new frame (source lines 151–232) -/

/-- The record's parsed metadata dict (its `parsed_dict` cell). -/
def pdOf (r : Record) : List (String × String) :=
  match getC r "parsed_dict" with
  | some (.dict pd) => pd
  | _ => []

/-- Distinct metadata keys across the group's records (source lines
152–154; Python set iteration fixed to first-occurrence order). -/
def allMetaKeys (records : List Record) : List String :=
  dedupFirst ((records.map (fun r => (pdOf r).map Prod.fst)).flatten)

/-- The test of source lines 192–196: `k` is fatal iff it is none of
`final_key`, `parsed_dict`, `image_description` and matches no column of
`ecols` case-insensitively. -/
def isOffending (final_key : String) (ecols : List String) (k : String) :
    Bool :=
  !(k == final_key || k == "parsed_dict" || k == "image_description") &&
    !((ecols.map lowerStr).contains (lowerStr k))

/-- Inner body of the fresh-store populate loop (source lines 216–218):
`if k in new_gdf.columns: new_gdf.loc[i, k] = v`. -/
def popFreshInner (i : Nat) (acc2 : Frame) (kv : String × String) : Frame :=
  if acc2.cols.contains kv.1 then acc2.locSet i kv.1 (some (.str kv.2))
  else acc2

/-- One row of the fresh-store populate loop (source lines 214–218):
`desc_dict = row['parsed_dict']`, then the key loop. -/
def popFreshOuter (acc : Frame) (i : Nat) : Frame :=
  (pdOf (acc.rows.getD i [])).foldl (popFreshInner i) acc

/-- The populate loop for a fresh store (source lines 213–218): for each
row, write each parsed key that is an actual column. -/
def popFrameFresh (f : Frame) : Frame :=
  (List.range f.rows.length).foldl popFreshOuter f

/-- Inner body of the existing-store populate loop (source lines
224–228): route the lower-cased key through `existing_lower_map`. -/
def popKnownInner (lmap : List (String × String)) (i : Nat) (acc2 : Frame)
    (kv : String × String) : Frame :=
  match dictLookup lmap (lowerStr kv.1) with
  | some actual => acc2.locSet i actual (some (.str kv.2))
  | none => acc2

/-- One row of the existing-store populate loop (source lines 222–228). -/
def popKnownOuter (lmap : List (String × String)) (acc : Frame) (i : Nat) :
    Frame :=
  (pdOf (acc.rows.getD i [])).foldl (popKnownInner lmap i) acc

/-- The populate loop against an existing store (source lines 220–228):
keys are folded to lower case and routed through
`existing_lower_map` to the existing column's exact spelling. -/
def popFrameKnown (lmap : List (String × String)) (f : Frame) : Frame :=
  (List.range f.rows.length).foldl (popKnownOuter lmap) f

/-- `existing_lower_map` (source line 221): later case-colliding column
wins, as in the Python dict comprehension. -/
def lowerMap (ecols : List String) : List (String × String) :=
  ecols.foldl (fun m c => dictInsert m (lowerStr c) c) []

/-- `new_gdf.drop(columns=['parsed_dict'])` if present (source 230–232). -/
def dropParsed (f : Frame) : Frame :=
  if f.cols.contains "parsed_dict" then f.dropCol "parsed_dict" else f

/-- One iteration of the new-column loop (source lines 208–211). -/
def addColStep (final_key : String) (g : Frame) (mk1 : String) : Frame :=
  if ¬(mk1 = final_key ∨ mk1 = "parsed_dict" ∨ mk1 = "image_description")
      ∧ ¬g.cols.contains mk1 then
    g.addColNone mk1
  else g

/-- Building `new_gdf` for a fresh/empty store (source lines 204–218 and
230–232): create a column for every non-reserved new metadata key, then
populate from the parsed dicts and drop `parsed_dict`. -/
def freshBuild (final_key : String) (amk : List String)
    (records : List Record) : Frame :=
  dropParsed
    (popFrameFresh (amk.foldl (addColStep final_key) (frameOfRecords records)))

/-- Building `new_gdf` against an existing store (source lines 204,
220–232). -/
def knownBuild (ecols : List String) (records : List Record) : Frame :=
  dropParsed (popFrameKnown (lowerMap ecols) (frameOfRecords records))

/-! ### Merge engine (source lines 235–257) -/

/-- pandas `==` on two cells: NaN compares unequal to everything. -/
def cellEq (a b : Cell) : Bool :=
  match a, b with
  | some x, some y => x = y
  | _, _ => false

/-- The row written by `existing_gdf.loc[idx, col] = new_row[col]` over
every `col != 'filename'` of `all_cols` (source lines 245–247). -/
def replaceRow (all_cols : List String) (old new : Row) : Row :=
  all_cols.map
    (fun c => (c, if c = "filename" then getC old c else getC new c))

/-- One iteration of the upsert loop (source lines 241–251): overwrite
every row whose `filename` equals the incoming row's (pandas `.loc` hits
all matches), else append the incoming row. -/
def upsertStep (all_cols : List String) (acc : List Row) (nrow : Row) :
    List Row :=
  if acc.any (fun r => cellEq (getC r "filename") (getC nrow "filename")) then
    acc.map
      (fun r =>
        if cellEq (getC r "filename") (getC nrow "filename") then
          replaceRow all_cols r nrow
        else r)
  else acc ++ [nrow]

/-- The whole upsert loop over the incoming rows. -/
def upsertRows (all_cols : List String) (existing new : List Row) :
    List Row :=
  new.foldl (upsertStep all_cols) existing

/-- The prune of source lines 253–255: keep exactly the rows whose
`filename` is `isin` the incoming batch's filename cells. -/
def pruneRows (rows : List Row) (newFnames : List Cell) : List Row :=
  rows.filter (fun r => newFnames.any (fun c => cellEq (getC r "filename") c))

/-- Schema union, reindexing, upsert and prune (source lines 235–257),
with `list(set(...) | set(...))` fixed to first-occurrence order. -/
def mergeFrames (ef nf : Frame) : Frame :=
  let all_cols := dedupFirst (ef.cols ++ nf.cols)
  let efR := ef.reindex all_cols
  let nfR := nf.reindex all_cols
  let ups := upsertRows all_cols efR.rows nfR.rows
  let newFnames := nfR.rows.map (fun r => getC r "filename")
  { cols := all_cols, rows := pruneRows ups newFnames }

/-! ### One group (source lines 143–264) -/

/-- Processing of a single group against its (optional) existing store:
reconcile case-variant group-key columns, validate the incoming metadata
keys when the store has rows (fatal `ValueError` naming the first
offending key and the store path), build and populate the new frame, and
merge or create fresh.  Returns the frame handed to `to_file`. -/
def processGroup (final_key gpkg_path : String) (existing : Option Frame)
    (records : List Record) : Except PipelineError Frame :=
  let amk := allMetaKeys records
  let rec0 := reconcileStep final_key existing
  match rec0.1 with
  | some ef =>
    if ef.isEmpty then .ok (freshBuild final_key amk records)
    else
      match amk.find? (fun k => isOffending final_key rec0.2 k) with
      | some k => .error (.unknownMetaKey k gpkg_path)
      | none => .ok (mergeFrames ef (knownBuild rec0.2 records))
  | none => .ok (freshBuild final_key amk records)

/-! ### The full run (source lines 43–264)

On-disk stores are modelled as an association list keyed by gpkg path;
`to_file` is `dictInsert`, reading is `dictLookup` (an unreadable file is
already covered by `none`). -/

abbrev Stores := List (String × Frame)

/-- `os.path.join(output, gv, gv + '.gpkg')` (source lines 145–149). -/
def gpkgPath (output : String) (g : Cell) : String :=
  match g with
  | some (.str s) => output ++ "/" ++ s ++ "/" ++ s ++ ".gpkg"
  | _ => output

/-- The per-group loop (source lines 143–264): groups processed in
order; a raised error halts the loop, leaving the stores written so far
and all later groups untouched. -/
def runGroups (final_key output : String) (records : List Record)
    (stores : Stores) : List Cell → Stores × Option PipelineError
  | [] => (stores, none)
  | g :: gs =>
    let path := gpkgPath output g
    match processGroup final_key path (dictLookup stores path)
        (groupOf final_key records g) with
    | .error e => (stores, some e)
    | .ok f => runGroups final_key output records (dictInsert stores path f) gs

/-- `import_geotagged_photos_to_points` over a photo batch and a store
state: returns the final store state and the error that aborted the run,
if any. -/
def runPipeline (output folder_key_word : String)
    (valid : Option (List String)) (photos : List Photo)
    (stores : Stores) : Stores × Option PipelineError :=
  let final_key := lowerStr folder_key_word
  if photos.isEmpty then (stores, none)
  else
    match buildRecords final_key valid photos with
    | .error e => (stores, some e)
    | .ok records =>
      if records.isEmpty then (stores, none)
      else
        runGroups final_key output records stores
          (dedupFirst (records.map (groupKey final_key)))

/-- The group value the record-building phase resolves for a photo, when
the photo survives both skip checks (used to state the allow-list
claims). -/
def resolvedGroup (final_key : String) (p : Photo) : Option String :=
  match p.has_exif, p.gps_latitude, p.gps_longitude with
  | true, some _, some _ => dictLookup (foldedDesc p.image_description) final_key
  | _, _, _ => none

/-! ### Verification vocabulary

Characterisation devices used by the theorems below: named versions of
anonymous subexpressions of the embedded code, and concrete inputs for
witnesses and counterexamples. -/

/-- `col.lower() == final_key and col != final_key` (source line 174). -/
def isVariant (final_key c : String) : Bool :=
  (lowerStr c == final_key) && (c != final_key)

/-- Per-row effect of one fillna-and-drop pass per variant column. -/
def unifyRow (fk : String) (vs : List String) (r : Row) : Row :=
  vs.foldl
    (fun r c =>
      (setC r fk ((getC r fk).orElse (fun _ => getC r c))).filter
        (fun kv => kv.1 ≠ c))
    r

/-- The `renamed_cols` dict accumulated by the collision loop when the
canonical column is absent. -/
def renMap (final_key : String) (f : Frame) : List (String × String) :=
  (f.cols.filter (fun c => isVariant final_key c)).foldl
    (fun m c => dictInsert m c final_key) []

/-- A concrete photo whose group value is outside the allow-list. -/
def c7photo : Photo :=
  Photo.mk "/in/bad.jpg" true (some (1, 2, 3)) (some "N") (some (4, 5, 6))
    (some "E") none (some "f-bad") none none

/-- A concrete photo with an out-of-allow-list group value, and a
pre-existing store state, for the C10 witness. -/
def c10photo : Photo :=
  Photo.mk "/in/rej.jpg" true (some (1, 2, 3)) (some "N") (some (4, 5, 6))
    (some "E") none (some "f-rej") none none

def c10stores : Stores := [("/out/old/old.gpkg", Frame.mk ["filename"] [])]

/-- Counterexample input for C4: two case-variant columns `AB`, `Ab`
and no canonical `ab` column. -/
def ce4F : Frame :=
  ⟨["AB", "Ab", "filename"],
   [[("AB", some (.str "x")), ("Ab", none), ("filename", some (.str "a"))]]⟩

/-- Counterexample input for C3: an existing store without a
`parsed_dict` column. -/
def ce3F : Frame :=
  ⟨["filename", "f"],
   [[("filename", some (.str "a.jpg")), ("f", some (.str "g"))]]⟩

/-- A photo whose description carries a metadata key literally named
`parsed_dict`. -/
def ce3photo : Photo :=
  Photo.mk "/in/a.jpg" true (some (1, 2, 3)) (some "N") (some (4, 5, 6))
    (some "E") none (some "f-g;parsed_dict-v") none none

/-- The record batch built from `ce3photo`. -/
def ce3Recs : List Record :=
  (buildRecords "f" none [ce3photo]).toOption.getD []

/-- A photo carrying a genuinely unknown metadata key `color`, for the
amended C3 witness. -/
def c3wphoto : Photo :=
  Photo.mk "/in/a.jpg" true (some (1, 2, 3)) (some "N") (some (4, 5, 6))
    (some "E") none (some "f-g;color-red") none none

def c3wRecs : List Record :=
  (buildRecords "f" none [c3wphoto]).toOption.getD []

/-- The fixed keys of every record dict (source lines 115–124), in
construction order. -/
def baseKeys : List String :=
  ["filename", "latitude", "longitude", "altitude", "image_description",
   "create_date", "orientation", "geometry"]

/-- The full key list of a record dict when the group key collides with
no fixed field. -/
def stdKeys (final_key : String) : List String :=
  baseKeys ++ [final_key, "parsed_dict"]

/-- What the record builder guarantees about each record, as a decidable
check: the dict has exactly the standard keys, the parsed metadata keys
are lower-case and never the identity key, and the filename cell is a
string. -/
def wfRecord (final_key : String) (r : Record) : Bool :=
  (r.map Prod.fst == stdKeys final_key) &&
  (match getC r "parsed_dict" with
   | some (.dict pd) =>
     pd.all (fun kv => (lowerStr kv.1 == kv.1) && (kv.1 != "filename"))
   | _ => false) &&
  (match getC r "filename" with
   | some (.str _) => true
   | _ => false)

/-- The abstract effect of one populate loop body on one row, given the
key-to-column routing `tr` of the branch (identity routing restricted to
the frame's columns for a fresh store, `existing_lower_map` routing for
an existing one). -/
def popRowStep (tr : String → Option String) (r : Row)
    (kv : String × String) : Row :=
  match tr kv.1 with
  | some c => setC r c (some (.str kv.2))
  | none => r

def popRow (tr : String → Option String) (pd : List (String × String))
    (r : Row) : Row :=
  pd.foldl (popRowStep tr) r

/-- The cell both populate branches leave at column `c` of a record's
row: the last metadata value routed to `c`, else the record's own cell. -/
def resolveCell (r : Record) (c : String) : Cell :=
  match (pdOf r).reverse.find? (fun kv => kv.1 == c) with
  | some kv => some (.str kv.2)
  | none => getC r c

/-- Counterexample batch for C5: two photos sharing the metadata value
`filename-x`, which overwrites the identity column. -/
def ce5photos : List Photo :=
  [Photo.mk "/in/a.jpg" true (some (1, 2, 3)) (some "N") (some (4, 5, 6))
    (some "E") none (some "f-g;filename-x;lat-1") none none,
   Photo.mk "/in/b.jpg" true (some (2, 2, 3)) (some "N") (some (4, 5, 6))
    (some "E") none (some "f-g;filename-x;lat-2") none none]

def ce5S1 : Stores := (runPipeline "/out" "F" none ce5photos []).1

def ce5S2 : Stores := (runPipeline "/out" "F" none ce5photos ce5S1).1

def ce5F1 : Frame := (dictLookup ce5S1 "/out/g/g.gpkg").getD ⟨[], []⟩

def ce5F2 : Frame := (dictLookup ce5S2 "/out/g/g.gpkg").getD ⟨[], []⟩

/-! ## Shared lemmas about the dictionary primitives -/

theorem dictLookup_dictInsert {α : Type} (d : List (String × α)) (k k1 : String)
    (v : α) :
    dictLookup (dictInsert d k v) k1 =
      if k1 = k then some v else dictLookup d k1 := by
  induction d with
  | nil =>
    by_cases h : k1 = k
    · simp [dictInsert, dictLookup, h]
    · simp [dictInsert, dictLookup, h, Ne.symm h]
  | cons hd tl ih =>
    obtain ⟨k2, v2⟩ := hd
    by_cases h2 : k2 = k
    · subst h2
      by_cases h : k1 = k2
      · simp [dictInsert, dictLookup, h]
      · simp [dictInsert, dictLookup, h, Ne.symm h]
    · by_cases h : k1 = k2
      · subst h
        have hk : ¬k1 = k := fun hh => h2 (hh ▸ rfl)
        simp [dictInsert, dictLookup, h2, hk]
      · simp [dictInsert, dictLookup, h2, h, Ne.symm h, ih]

theorem getC_setC (r : Row) (c c1 : String) (v : Cell) :
    getC (setC r c v) c1 = if c1 = c then v else getC r c1 := by
  by_cases h : c1 = c <;>
    simp [getC, setC, dictLookup_dictInsert, h]

theorem dictLookup_eq_none {α : Type} (d : List (String × α)) (k : String)
    (h : k ∉ d.map Prod.fst) : dictLookup d k = none := by
  induction d with
  | nil => rfl
  | cons hd tl ih =>
    simp only [List.map_cons, List.mem_cons] at h
    push_neg at h
    simp [dictLookup, Ne.symm h.1, ih h.2]

theorem getC_eq_none (r : Row) (c : String) (h : c ∉ r.map Prod.fst) :
    getC r c = none := by
  simp [getC, dictLookup_eq_none r c h]

/-! ## Claim C9: decimal-degree conversion -/

/-- Claim C9: `dms_to_dd` returns `degrees + minutes/60 + seconds/3600`,
negated exactly when the hemisphere reference is `S` or `W`; for
degrees 10, minutes 30, seconds 0 it gives `+10.5` under `N` and `-10.5`
under `S`. -/
theorem dms_to_dd_spec :
    (∀ d m s : ℚ, ∀ r : String,
      dms_to_dd (d, m, s) r =
        if r = "S" ∨ r = "W" then -(d + m / 60 + s / 3600)
        else d + m / 60 + s / 3600)
    ∧ dms_to_dd (10, 30, 0) "N" = 10.5
    ∧ dms_to_dd (10, 30, 0) "S" = -10.5 := by
  refine ⟨fun d m s r => ?_, ?_, ?_⟩
  · simp [dms_to_dd, List.mem_cons]
  · have h : ("N" : String) ∈ ["S", "W"] ↔ False := by decide
    norm_num [dms_to_dd, h]
  · have h : ("S" : String) ∈ ["S", "W"] ↔ True := by decide
    norm_num [dms_to_dd, h]

/-! ## Claim C6: the metadata parser -/

/-- Claim C6: `parse_image_description` splits on semicolons, trims,
drops empty and dash-less segments, splits on the first dash, trims key
and value, and lets a repeated key's later occurrence win; concretely
`a-1;b-2` parses to `{a: 1, b: 2}`, `bad;c-3` to `{c: 3}`, an empty or
absent description to the empty mapping, and no case normalization is
performed by the parser itself. -/
theorem parse_image_description_spec :
    parse_image_description (some "a-1;b-2") = [("a", "1"), ("b", "2")]
    ∧ parse_image_description (some "bad;c-3") = [("c", "3")]
    ∧ parse_image_description none = []
    ∧ parse_image_description (some "") = []
    ∧ parse_image_description (some " a - 1 ;;x; a-2 ") = [("a", "2")]
    ∧ parse_image_description (some "k-b-c") = [("k", "b-c")]
    ∧ parse_image_description (some "A-1") = [("A", "1")]
    ∧ (∀ (d : List (String × String)) (k v : String),
        dictLookup (dictInsert d k v) k = some v) := by
  refine ⟨by decide, by decide, rfl, by decide, by decide, by decide, by decide,
    fun d k v => ?_⟩
  simp [dictLookup_dictInsert]

/-! ## Claim C8: recoverable skips -/

/-- Claim C8: a photo without GPS EXIF, or whose case-folded metadata
keys do not contain the group-key word, is skipped non-fatally
(`.ok none`); a skipped photo is excluded and the remaining photos are
processed unchanged. -/
theorem recoverable_skip_spec :
    (∀ (fk : String) (valid : Option (List String)) (p : Photo),
      p.has_exif = false ∨ p.gps_latitude = none ∨ p.gps_longitude = none →
      buildRecord fk valid p = .ok none)
    ∧ (∀ (fk : String) (valid : Option (List String)) (p : Photo),
      p.has_exif = true → p.gps_latitude.isSome → p.gps_longitude.isSome →
      dictLookup (foldedDesc p.image_description) fk = none →
      buildRecord fk valid p = .ok none)
    ∧ (∀ (fk : String) (valid : Option (List String)) (p : Photo)
        (ps : List Photo),
      buildRecord fk valid p = .ok none →
      buildRecords fk valid (p :: ps) = buildRecords fk valid ps) := by
  refine ⟨fun fk valid p h => ?_, fun fk valid p hx hlat hlon hkey => ?_,
    fun fk valid p ps h => ?_⟩
  · cases hx : p.has_exif <;> cases hlat : p.gps_latitude <;>
      cases hlon : p.gps_longitude <;> simp_all [buildRecord]
  · cases hx2 : p.has_exif <;> cases hlat2 : p.gps_latitude <;>
      cases hlon2 : p.gps_longitude <;> simp_all [buildRecord]
  · cases e : buildRecords fk valid ps <;> simp [buildRecords, h, e]

/-- Witness for C8 at concrete photos: one without EXIF, one whose
metadata lacks the group key, and skip-continuation over a batch. -/
theorem recoverable_skip_spec_witness :
    ((Photo.mk "/in/a.jpg" false none none none none none none none none).has_exif
        = false
      ∨ (Photo.mk "/in/a.jpg" false none none none none none none none none).gps_latitude
        = none
      ∨ (Photo.mk "/in/a.jpg" false none none none none none none none none).gps_longitude
        = none)
    ∧ buildRecord "f" none
        (Photo.mk "/in/a.jpg" false none none none none none none none none)
        = .ok none
    ∧ buildRecord "f" none
        (Photo.mk "/in/b.jpg" true (some (1, 2, 3)) (some "N") (some (4, 5, 6))
          (some "E") none (some "x-1") none none)
        = .ok none
    ∧ buildRecords "f" none
        [Photo.mk "/in/a.jpg" false none none none none none none none none]
        = buildRecords "f" none [] :=
  ⟨Or.inl (by decide),
   recoverable_skip_spec.1 "f" none _ (Or.inl (by decide)),
   recoverable_skip_spec.2.1 "f" none _ (by decide) (by decide) (by decide)
     (by decide),
   recoverable_skip_spec.2.2 "f" none _ []
     (recoverable_skip_spec.1 "f" none _ (Or.inl (by decide)))⟩

/-! ## Claim C7: allow-list violations are fatal for the whole run -/

theorem buildRecords_error_of_invalid (fk : String) (vs : List String)
    (photos : List Photo) (p : Photo) (gv : String)
    (hp : p ∈ photos) (hres : resolvedGroup fk p = some gv) (hnv : gv ∉ vs) :
    ∃ e, buildRecords fk (some vs) photos = .error e := by
  induction photos with
  | nil => cases hp
  | cons q ps ih =>
    rcases List.mem_cons.mp hp with rfl | hmem
    · cases hx : p.has_exif <;> cases hlat : p.gps_latitude <;>
        cases hlon : p.gps_longitude <;>
        simp_all [resolvedGroup, buildRecord, buildRecords]
    · cases hb : buildRecord fk (some vs) q with
      | error e => exact ⟨e, by simp [buildRecords, hb]⟩
      | ok r =>
        obtain ⟨e, he⟩ := ih hmem
        exact ⟨e, by simp [buildRecords, hb, he]⟩

/-- Claim C7: when an allow-list is configured and some photo's
resolved group value is not a member, the whole run aborts with an
error (`runPipeline` reports a raised error, not a per-photo or
per-group skip). -/
theorem allowlist_fatal_spec (output fkw : String) (vs : List String)
    (photos : List Photo) (stores : Stores) (p : Photo) (gv : String)
    (hp : p ∈ photos) (hres : resolvedGroup (lowerStr fkw) p = some gv)
    (hnv : gv ∉ vs) :
    (runPipeline output fkw (some vs) photos stores).2 ≠ none := by
  obtain ⟨e, he⟩ :=
    buildRecords_error_of_invalid (lowerStr fkw) vs photos p gv hp hres hnv
  have hne : photos.isEmpty = false := by
    cases photos
    · cases hp
    · rfl
  simp [runPipeline, hne, he]

/-- Witness for C7: one photo whose group value `bad` is outside the
allow-list aborts the run. -/
theorem allowlist_fatal_spec_witness :
    c7photo ∈ [c7photo]
    ∧ resolvedGroup (lowerStr "F") c7photo = some "bad"
    ∧ "bad" ∉ ["plantss", "fauna"]
    ∧ (runPipeline "/out" "F" (some ["plantss", "fauna"]) [c7photo] []).2
      ≠ none :=
  ⟨by decide, by decide, by decide,
   allowlist_fatal_spec "/out" "F" ["plantss", "fauna"] [c7photo] [] c7photo
     "bad" (by decide) (by decide) (by decide)⟩

/-! ## Claim C10: allow-list validation precedes all persistence -/

theorem processGroup_error_cases (fk path : String) (ex : Option Frame)
    (recs : List Record) (e : PipelineError)
    (h : processGroup fk path ex recs = .error e) :
    ∃ k, e = .unknownMetaKey k path := by
  simp only [processGroup] at h
  split at h
  · split at h
    · cases h
    · split at h
      · cases h
        exact ⟨_, rfl⟩
      · cases h
  · cases h

theorem runGroups_error_cases (fk out : String) (recs : List Record)
    (stores : Stores) (gs : List Cell) (e : PipelineError)
    (h : (runGroups fk out recs stores gs).2 = some e) :
    ∃ k p, e = .unknownMetaKey k p := by
  induction gs generalizing stores with
  | nil => simp [runGroups] at h
  | cons g gs ih =>
    simp only [runGroups] at h
    split at h
    · next e1 he1 =>
      simp only at h
      cases h
      obtain ⟨k, hk⟩ := processGroup_error_cases _ _ _ _ _ he1
      exact ⟨k, _, hk⟩
    · exact ih _ h

/-- Claim C10: whenever the run aborts with the allow-list error, the
store state is exactly the pre-run state — record building (where the
allow-list check lives) precedes the per-group loop, and the only error
the group loop itself can raise is the schema mismatch. -/
theorem allowlist_leaves_stores_spec (output fkw : String)
    (valid : Option (List String)) (photos : List Photo) (stores : Stores)
    (gv pp : String)
    (h : (runPipeline output fkw valid photos stores).2
      = some (.invalidFolderValue gv pp)) :
    (runPipeline output fkw valid photos stores).1 = stores := by
  by_cases hE : photos.isEmpty
  · simp [runPipeline, hE]
  · cases hb : buildRecords (lowerStr fkw) valid photos with
    | error e => simp [runPipeline, hE, hb]
    | ok recs =>
      by_cases hR : recs.isEmpty
      · simp [runPipeline, hE, hb, hR]
      · exfalso
        simp only [runPipeline, hE, hb, hR] at h
        simp only [Bool.false_eq_true, if_false] at h
        obtain ⟨k, p, hk⟩ := runGroups_error_cases _ _ _ _ _ _ h
        cases hk

/-! ## Claims C1 and C2: the upsert and prune steps -/

theorem dictLookup_map_self {α : Type} (l : List String) (f : String → α)
    (c : String) (hc : c ∈ l) :
    dictLookup (l.map (fun x => (x, f x))) c = some (f c) := by
  induction l with
  | nil => cases hc
  | cons a l ih =>
    by_cases h : a = c
    · subst h
      simp [dictLookup]
    · rcases List.mem_cons.mp hc with rfl | hm
      · exact absurd rfl h
      · simp [dictLookup, h, ih hm]

theorem getC_replaceRow (all_cols : List String) (old nrow : Row) (c : String)
    (hc : c ∈ all_cols) :
    getC (replaceRow all_cols old nrow) c =
      if c = "filename" then getC old c else getC nrow c := by
  have h := dictLookup_map_self all_cols
    (fun x => if x = "filename" then getC old x else getC nrow x) c hc
  simp only [getC] at h
  simp only [replaceRow, getC, h, Option.getD_some]

theorem fname_replaceRow (all_cols : List String) (old nrow : Row)
    (hfc : "filename" ∈ all_cols) :
    getC (replaceRow all_cols old nrow) "filename" = getC old "filename" := by
  simp [getC_replaceRow all_cols old nrow _ hfc]

theorem cellEq_some (a : Cell) (v : Val) :
    cellEq a (some v) = true ↔ a = some v := by
  cases a with
  | none => simp [cellEq]
  | some x => simp [cellEq]

/-- The filename cell of a row after one upsert iteration touched it. -/
theorem fname_upsertTouch (all_cols : List String) (nrow r : Row)
    (hfc : "filename" ∈ all_cols) :
    getC (if cellEq (getC r "filename") (getC nrow "filename") then
        replaceRow all_cols r nrow else r) "filename" = getC r "filename" := by
  split
  · exact fname_replaceRow all_cols r nrow hfc
  · rfl

theorem pairwise_upsertStep (all_cols : List String) (ex : List Row)
    (nrow : Row) (hfc : "filename" ∈ all_cols)
    (hp : ex.Pairwise (fun r1 r2 =>
      cellEq (getC r1 "filename") (getC r2 "filename") = false)) :
    (upsertStep all_cols ex nrow).Pairwise (fun r1 r2 =>
      cellEq (getC r1 "filename") (getC r2 "filename") = false) := by
  unfold upsertStep
  split
  · rw [List.pairwise_map]
    refine hp.imp ?_
    intro a b hab
    rw [fname_upsertTouch all_cols nrow a hfc,
      fname_upsertTouch all_cols nrow b hfc]
    exact hab
  · next hany =>
    rw [List.pairwise_append]
    refine ⟨hp, List.pairwise_singleton _ _, ?_⟩
    intro r hr b hb
    rw [List.mem_singleton] at hb
    subst hb
    have := List.any_eq_true.not.mp hany
    push_neg at this
    have h2 := this r hr
    cases h3 : cellEq (getC r "filename") (getC b "filename")
    · rfl
    · exact absurd h3 h2

theorem count_le_one_of_pairwise (l : List Row) (v : Val)
    (hp : l.Pairwise (fun r1 r2 =>
      cellEq (getC r1 "filename") (getC r2 "filename") = false)) :
    l.countP (fun r => cellEq (getC r "filename") (some v)) ≤ 1 := by
  induction l with
  | nil => simp
  | cons a l ih =>
    rw [List.pairwise_cons] at hp
    rw [List.countP_cons]
    cases ha : cellEq (getC a "filename") (some v)
    · simpa using ih hp.2
    · have hall : l.countP (fun r => cellEq (getC r "filename") (some v)) = 0 := by
        rw [List.countP_eq_zero]
        intro r hr
        have h1 := hp.1 r hr
        have h2 := (cellEq_some _ v).mp ha
        rw [h2] at h1
        simp only [Bool.not_eq_true]
        cases hc : cellEq (getC r "filename") (some v)
        · rfl
        · have := (cellEq_some _ v).mp hc
          rw [this] at h1
          simp [cellEq] at h1
      simp [hall, ha]

theorem countP_upsertStep_match (all_cols : List String) (ex : List Row)
    (nrow : Row) (v : Val) (hfc : "filename" ∈ all_cols)
    (hany : ex.any (fun r =>
      cellEq (getC r "filename") (getC nrow "filename")) = true) :
    (upsertStep all_cols ex nrow).countP
        (fun r => cellEq (getC r "filename") (some v)) =
      ex.countP (fun r => cellEq (getC r "filename") (some v)) := by
  unfold upsertStep
  rw [if_pos hany, List.countP_map]
  refine List.countP_congr ?_
  intro r _
  simp only [Function.comp_apply, fname_upsertTouch all_cols nrow r hfc]

theorem countP_upsertStep_append (all_cols : List String) (ex : List Row)
    (nrow : Row) (v : Val)
    (hany : ex.any (fun r =>
      cellEq (getC r "filename") (getC nrow "filename")) = false) :
    (upsertStep all_cols ex nrow).countP
        (fun r => cellEq (getC r "filename") (some v)) =
      ex.countP (fun r => cellEq (getC r "filename") (some v)) +
        (if cellEq (getC nrow "filename") (some v) then 1 else 0) := by
  unfold upsertStep
  rw [if_neg (by simp [hany]), List.countP_append]
  simp [List.countP_cons]

theorem count_one_after_fold (all_cols : List String) (ns : List Row)
    (ex : List Row) (v : Val) (hfc : "filename" ∈ all_cols)
    (hp : ex.Pairwise (fun r1 r2 =>
      cellEq (getC r1 "filename") (getC r2 "filename") = false))
    (h1 : ex.countP (fun r => cellEq (getC r "filename") (some v)) = 1) :
    (upsertRows all_cols ex ns).countP
      (fun r => cellEq (getC r "filename") (some v)) = 1 := by
  induction ns generalizing ex with
  | nil => exact h1
  | cons m ms ih =>
    have hpair := pairwise_upsertStep all_cols ex m hfc hp
    refine ih (upsertStep all_cols ex m) hpair ?_
    cases hany : ex.any (fun r =>
        cellEq (getC r "filename") (getC m "filename"))
    · rw [countP_upsertStep_append all_cols ex m v hany, h1]
      cases hm : cellEq (getC m "filename") (some v)
      · simp
      · exfalso
        have hpos : 0 < ex.countP
            (fun r => cellEq (getC r "filename") (some v)) := by omega
        obtain ⟨r, hr, hpr⟩ := List.countP_pos_iff.mp hpos
        have h2 := (cellEq_some _ v).mp hpr
        have h3 := (cellEq_some _ v).mp hm
        have : ex.any (fun r =>
            cellEq (getC r "filename") (getC m "filename")) = true := by
          rw [List.any_eq_true]
          exact ⟨r, hr, by rw [h2, h3]; simp [cellEq]⟩
        rw [this] at hany
        cases hany
    · rw [countP_upsertStep_match all_cols ex m v hfc hany, h1]

/-- Claim C1: for every existing row set and incoming batch row, a
filename match overwrites every non-filename column of the matched row
with the incoming value (full replacement) and creates no new row; no
match appends the incoming row; and, starting from a store with unique
filenames, after the whole upsert loop exactly one row carries each
incoming row's filename. -/
theorem upsert_spec :
    (∀ (all_cols : List String) (ex : List Row) (nrow : Row),
      ex.any (fun r =>
        cellEq (getC r "filename") (getC nrow "filename")) = true →
      (upsertStep all_cols ex nrow).length = ex.length)
    ∧ (∀ (all_cols : List String) (ex : List Row) (nrow : Row),
      ex.any (fun r =>
        cellEq (getC r "filename") (getC nrow "filename")) = false →
      upsertStep all_cols ex nrow = ex ++ [nrow])
    ∧ (∀ (all_cols : List String) (old nrow : Row) (c : String),
      c ∈ all_cols → c ≠ "filename" →
      getC (replaceRow all_cols old nrow) c = getC nrow c)
    ∧ (∀ (all_cols : List String) (old nrow : Row), "filename" ∈ all_cols →
      getC (replaceRow all_cols old nrow) "filename" = getC old "filename")
    ∧ (∀ (all_cols : List String) (ex ns : List Row) (n : Row) (v : Val),
      "filename" ∈ all_cols →
      ex.Pairwise (fun r1 r2 =>
        cellEq (getC r1 "filename") (getC r2 "filename") = false) →
      n ∈ ns → getC n "filename" = some v →
      (upsertRows all_cols ex ns).countP
        (fun r => cellEq (getC r "filename") (some v)) = 1) := by
  refine ⟨fun all_cols ex nrow h => ?_, fun all_cols ex nrow h => ?_,
    fun all_cols old nrow c hc hne => ?_, fun all_cols old nrow hfc => ?_,
    fun all_cols ex ns n v hfc hp hn hv => ?_⟩
  · unfold upsertStep
    rw [if_pos h, List.length_map]
  · unfold upsertStep
    rw [if_neg (by simp [h])]
  · rw [getC_replaceRow all_cols old nrow c hc, if_neg hne]
  · exact fname_replaceRow all_cols old nrow hfc
  · induction ns generalizing ex with
    | nil => cases hn
    | cons m ms ih =>
      rcases List.mem_cons.mp hn with rfl | hm
      · show (upsertRows all_cols (upsertStep all_cols ex n) ms).countP _ = 1
        refine count_one_after_fold all_cols ms _ v hfc
          (pairwise_upsertStep all_cols ex n hfc hp) ?_
        cases hany : ex.any (fun r =>
            cellEq (getC r "filename") (getC n "filename"))
        · rw [countP_upsertStep_append all_cols ex n v hany]
          have hzero : ex.countP
              (fun r => cellEq (getC r "filename") (some v)) = 0 := by
            rw [List.countP_eq_zero]
            intro r hr
            simp only [Bool.not_eq_true]
            cases hc : cellEq (getC r "filename") (some v)
            · rfl
            · exfalso
              have h2 := (cellEq_some _ v).mp hc
              have : ex.any (fun r =>
                  cellEq (getC r "filename") (getC n "filename")) = true := by
                rw [List.any_eq_true]
                exact ⟨r, hr, by rw [h2, hv]; simp [cellEq]⟩
              rw [this] at hany
              cases hany
          rw [hzero, hv]
          simp [cellEq]
        · rw [countP_upsertStep_match all_cols ex n v hfc hany]
          have hle := count_le_one_of_pairwise ex v hp
          obtain ⟨r, hr, hpr⟩ := List.any_eq_true.mp hany
          have hge : 0 < ex.countP
              (fun r => cellEq (getC r "filename") (some v)) := by
            refine List.countP_pos_iff.mpr ⟨r, hr, ?_⟩
            cases hcr : getC r "filename" with
            | none => rw [hcr] at hpr; simp [cellEq] at hpr
            | some x =>
              rw [hcr, hv] at hpr
              simp only [cellEq, decide_eq_true_eq] at hpr
              rw [hpr]
              simp [cellEq]
          omega
      · exact ih (upsertStep all_cols ex m)
          (pairwise_upsertStep all_cols ex m hfc hp) hm

/-- Witness for C1 at a concrete two-row store and a one-row batch. -/
theorem upsert_spec_witness :
    ([[("filename", some (Val.str "a")), ("f", some (Val.str "g"))],
      [("filename", some (Val.str "b")), ("f", some (Val.str "h"))]]
        : List Row).any
      (fun r => cellEq (getC r "filename")
        (getC [("filename", some (Val.str "a")), ("f", some (Val.str "z"))]
          "filename")) = true
    ∧ (upsertStep ["filename", "f"]
        [[("filename", some (Val.str "a")), ("f", some (Val.str "g"))],
         [("filename", some (Val.str "b")), ("f", some (Val.str "h"))]]
        [("filename", some (Val.str "a")), ("f", some (Val.str "z"))]).length
      = 2
    ∧ getC (replaceRow ["filename", "f"]
        [("filename", some (Val.str "a")), ("f", some (Val.str "g"))]
        [("filename", some (Val.str "a")), ("f", some (Val.str "z"))]) "f"
      = some (Val.str "z")
    ∧ (upsertRows ["filename", "f"]
        [[("filename", some (Val.str "a")), ("f", some (Val.str "g"))],
         [("filename", some (Val.str "b")), ("f", some (Val.str "h"))]]
        [[("filename", some (Val.str "a")), ("f", some (Val.str "z"))]]).countP
        (fun r => cellEq (getC r "filename") (some (Val.str "a"))) = 1 := by
  refine ⟨by decide, ?_, ?_, ?_⟩
  · rw [upsert_spec.1 ["filename", "f"] _ _ (by decide)]
    decide
  · rw [upsert_spec.2.2.1 ["filename", "f"] _ _ "f" (by decide) (by decide)]
    decide
  · exact upsert_spec.2.2.2.2 ["filename", "f"]
      [[("filename", some (Val.str "a")), ("f", some (Val.str "g"))],
       [("filename", some (Val.str "b")), ("f", some (Val.str "h"))]]
      [[("filename", some (Val.str "a")), ("f", some (Val.str "z"))]]
      [("filename", some (Val.str "a")), ("f", some (Val.str "z"))]
      (Val.str "a") (by decide) (by decide) (by decide) (by decide)

theorem length_filter_sub {α : Type} (l : List α) (p : α → Bool) :
    (l.filter p).length = l.length - l.countP (fun a => !(p a)) := by
  induction l with
  | nil => rfl
  | cons a l ih =>
    have hle : l.countP (fun a => !(p a)) ≤ l.length := List.countP_le_length _
    cases h : p a <;> simp [h, ih] <;> omega

/-- Claim C2: the prune step removes exactly the rows whose filename
matches none of the batch's filename cells, keeps every other row
unmodified and in order (a sublist of the input), and the row count drops
by exactly the number of removed rows (one per omitted filename when the
store's filenames are unique). -/
theorem prune_spec :
    (∀ (rows : List Row) (newFnames : List Cell) (r : Row), r ∈ rows →
      newFnames.any (fun c => cellEq (getC r "filename") c) = false →
      r ∉ pruneRows rows newFnames)
    ∧ (∀ (rows : List Row) (newFnames : List Cell) (r : Row), r ∈ rows →
      newFnames.any (fun c => cellEq (getC r "filename") c) = true →
      r ∈ pruneRows rows newFnames)
    ∧ (∀ (rows : List Row) (newFnames : List Cell),
      (pruneRows rows newFnames).Sublist rows)
    ∧ (∀ (rows : List Row) (newFnames : List Cell),
      (pruneRows rows newFnames).length =
        rows.length - rows.countP (fun r =>
          !(newFnames.any (fun c => cellEq (getC r "filename") c)))) := by
  refine ⟨fun rows newFnames r hr h => ?_, fun rows newFnames r hr h => ?_,
    fun rows newFnames => ?_, fun rows newFnames => ?_⟩
  · intro hmem
    have := (List.mem_filter.mp hmem).2
    rw [h] at this
    cases this
  · exact List.mem_filter.mpr ⟨hr, h⟩
  · exact List.filter_sublist _
  · exact length_filter_sub rows _

/-- Witness for C2: pruning a three-row store against a batch holding
two of its filenames. -/
theorem prune_spec_witness :
    ([("filename", some (Val.str "c"))] : Row)
      ∈ ([[("filename", some (Val.str "a"))],
          [("filename", some (Val.str "b"))],
          [("filename", some (Val.str "c"))]] : List Row)
    ∧ ([some (Val.str "a"), some (Val.str "b")] : List Cell).any
        (fun c => cellEq (getC ([("filename", some (Val.str "c"))] : Row)
          "filename") c) = false
    ∧ ([("filename", some (Val.str "c"))] : Row)
      ∉ pruneRows
          [[("filename", some (Val.str "a"))],
           [("filename", some (Val.str "b"))],
           [("filename", some (Val.str "c"))]]
          [some (Val.str "a"), some (Val.str "b")]
    ∧ (pruneRows
          [[("filename", some (Val.str "a"))],
           [("filename", some (Val.str "b"))],
           [("filename", some (Val.str "c"))]]
          [some (Val.str "a"), some (Val.str "b")]).length = 3 - 1 := by
  refine ⟨by decide, by decide, ?_, ?_⟩
  · exact prune_spec.1 _ _ _ (by decide) (by decide)
  · rw [prune_spec.2.2.2 _ _]
    decide

/-! ## Claim C4: case-collision unification of the group-key column -/

theorem isVariant_iff (fk c : String) :
    isVariant fk c = true ↔ (lowerStr c = fk ∧ c ≠ fk) := by
  simp [isVariant]

theorem reconStep_not_variant (fk : String) (oc : List String)
    (acc : Frame × List (String × String)) (col : String)
    (h : ¬(lowerStr col = fk ∧ col ≠ fk)) :
    reconStep fk oc acc col = acc := by
  simp [reconStep, h]

theorem foldl_reconStep_filter (fk : String) (oc : List String)
    (cols : List String) (acc : Frame × List (String × String)) :
    cols.foldl (reconStep fk oc) acc =
      (cols.filter (fun c => isVariant fk c)).foldl (reconStep fk oc) acc := by
  induction cols generalizing acc with
  | nil => rfl
  | cons a l ih =>
    by_cases h : lowerStr a = fk ∧ a ≠ fk
    · have hv : isVariant fk a = true := (isVariant_iff fk a).mpr h
      simp only [List.foldl_cons, List.filter_cons, hv, if_true]
      exact ih _
    · have hv : isVariant fk a = false := by
        cases hva : isVariant fk a
        · rfl
        · exact absurd ((isVariant_iff fk a).mp hva) h
      simp only [List.foldl_cons, List.filter_cons, hv, if_false,
        Bool.false_eq_true, reconStep_not_variant fk oc acc a h]
      exact ih _

theorem foldl_unify (fk : String) (oc : List String) (hin : fk ∈ oc)
    (vs : List String) (hvs : ∀ c ∈ vs, lowerStr c = fk ∧ c ≠ fk)
    (f0 : Frame) :
    vs.foldl (reconStep fk oc) (f0, []) =
      (vs.foldl (fun fr c => (fr.fillnaFrom fk c).dropCol c) f0, []) := by
  induction vs generalizing f0 with
  | nil => rfl
  | cons a l ih =>
    have ha := hvs a (List.mem_cons_self a l)
    simp only [List.foldl_cons, reconStep, if_pos ha, if_pos hin]
    exact ih (fun c hc => hvs c (List.mem_cons_of_mem a hc)) _

theorem foldl_unify_cols (fk : String) (vs : List String) (f0 : Frame) :
    (vs.foldl (fun fr c => (fr.fillnaFrom fk c).dropCol c) f0).cols =
      vs.foldl (fun cs c => cs.filter (fun c1 => c1 ≠ c)) f0.cols := by
  induction vs generalizing f0 with
  | nil => rfl
  | cons a l ih => exact ih ((f0.fillnaFrom fk a).dropCol a)

theorem foldl_filter_ne (vs cs : List String) :
    vs.foldl (fun cs c => cs.filter (fun c1 => c1 ≠ c)) cs =
      cs.filter (fun c => !(vs.contains c)) := by
  induction vs generalizing cs with
  | nil => simp
  | cons a l ih =>
    simp only [List.foldl_cons, ih, List.filter_filter]
    refine List.filter_congr ?_
    intro c _
    cases hc : (c == a) <;> cases hl : l.contains c <;>
      simp [List.contains_cons, hc, hl] <;>
      simp_all [beq_iff_eq]

theorem foldl_unify_rows (fk : String) (vs : List String) (f0 : Frame) :
    (vs.foldl (fun fr c => (fr.fillnaFrom fk c).dropCol c) f0).rows =
      f0.rows.map (unifyRow fk vs) := by
  induction vs generalizing f0 with
  | nil =>
    simp only [List.foldl_nil]
    exact (List.map_id f0.rows).symm
  | cons a l ih =>
    simp only [List.foldl_cons]
    rw [ih ((f0.fillnaFrom fk a).dropCol a)]
    show ((f0.rows.map _).map _).map (unifyRow fk l) = _
    rw [List.map_map, List.map_map]
    rfl

theorem getC_filter_ne (r : Row) (c key : String) (h : key ≠ c) :
    getC (r.filter (fun kv => kv.1 ≠ c)) key = getC r key := by
  induction r with
  | nil => rfl
  | cons kv r ih =>
    obtain ⟨k1, v1⟩ := kv
    by_cases hk : k1 = c
    · subst hk
      have h2 : ¬(k1 = key) := fun hh => h (hh.symm.trans rfl)
      rw [List.filter_cons_of_neg (by simp)]
      rw [ih]
      show getC r key = (dictLookup ((k1, v1) :: r) key).getD none
      simp [dictLookup, h2, getC]
    · rw [List.filter_cons_of_pos (by simp [hk])]
      by_cases hkey : k1 = key
      · subst hkey
        simp [getC, dictLookup]
      · show (dictLookup ((k1, v1) :: _) key).getD none =
          (dictLookup ((k1, v1) :: r) key).getD none
        simp only [dictLookup, if_neg hkey]
        exact ih

theorem foldl_orElse_congr (l : List String) (g1 g2 : String → Cell)
    (init : Cell) (h : ∀ c ∈ l, g1 c = g2 c) :
    l.foldl (fun a c => a.orElse (fun _ => g1 c)) init =
      l.foldl (fun a c => a.orElse (fun _ => g2 c)) init := by
  induction l generalizing init with
  | nil => rfl
  | cons a l ih =>
    simp only [List.foldl_cons, h a (List.mem_cons_self a l)]
    exact ih _ (fun c hc => h c (List.mem_cons_of_mem a hc))

theorem getC_unifyRow (fk : String) (vs : List String) (r : Row)
    (hvs : ∀ c ∈ vs, c ≠ fk) (hnd : vs.Nodup) :
    getC (unifyRow fk vs r) fk =
      vs.foldl (fun a c => a.orElse (fun _ => getC r c)) (getC r fk) := by
  induction vs generalizing r with
  | nil => rfl
  | cons a l ih =>
    have ha : a ≠ fk := hvs a (List.mem_cons_self a l)
    obtain ⟨hal, hl⟩ := List.nodup_cons.mp hnd
    show getC (unifyRow fk l _) fk = _
    rw [ih _ (fun c hc => hvs c (List.mem_cons_of_mem a hc)) hl]
    have h1 : getC
        ((setC r fk ((getC r fk).orElse (fun _ => getC r a))).filter
          (fun kv => kv.1 ≠ a)) fk =
        (getC r fk).orElse (fun _ => getC r a) := by
      rw [getC_filter_ne _ _ _ (Ne.symm ha), getC_setC]
      simp
    have h2 : ∀ c ∈ l, getC
        ((setC r fk ((getC r fk).orElse (fun _ => getC r a))).filter
          (fun kv => kv.1 ≠ a)) c = getC r c := by
      intro c hc
      have hca : c ≠ a := fun hh => hal (hh ▸ hc)
      rw [getC_filter_ne _ _ _ hca, getC_setC,
        if_neg (hvs c (List.mem_cons_of_mem a hc))]
    rw [List.foldl_cons, h1]
    exact foldl_orElse_congr l _ _ _ h2

theorem getC_renameRow (r : Row) (v fk : String)
    (hkeys : ∀ kv ∈ r, kv.1 ≠ fk) :
    getC (r.map (fun kv => ((dictLookup [(v, fk)] kv.1).getD kv.1, kv.2))) fk
      = getC r v := by
  induction r with
  | nil => rfl
  | cons kv r ih =>
    obtain ⟨k1, v1⟩ := kv
    have hk1 : k1 ≠ fk := hkeys (k1, v1) (List.mem_cons_self _ _)
    have ihr := ih (fun kv hkv => hkeys kv (List.mem_cons_of_mem _ hkv))
    by_cases h : v = k1
    · subst h
      simp [getC, dictLookup]
    · show (dictLookup (((dictLookup [(v, fk)] k1).getD k1, v1) :: _) fk).getD
          none = (dictLookup ((k1, v1) :: r) v).getD none
      have hlk : dictLookup [(v, fk)] k1 = none := by
        simp [dictLookup, h]
      rw [hlk]
      simp only [Option.getD_none, dictLookup, if_neg hk1,
        if_neg (fun hh : k1 = v => h hh.symm)]
      exact ihr

theorem countP_eq_one_of_nodup (l : List String) (x : String)
    (hnd : l.Nodup) (hx : x ∈ l) :
    l.countP (fun c => c = x) = 1 := by
  induction l with
  | nil => cases hx
  | cons a l ih =>
    obtain ⟨hal, hl⟩ := List.nodup_cons.mp hnd
    rcases List.mem_cons.mp hx with rfl | hm
    · have hz : l.countP (fun c => c = x) = 0 := by
        rw [List.countP_eq_zero]
        intro c hc
        simp only [decide_eq_true_eq]
        exact fun hh => hal (hh ▸ hc)
      simp [List.countP_cons, hz]
    · have hax : ¬(a = x) := fun hh => hal (hh ▸ hm)
      simp [List.countP_cons, hax, ih hl hm]

/-- Claim C4 as stated is false on the code: with two case-variant
columns and no canonical column, the loop renames both variants to the
canonical spelling, so two group-key columns remain after
reconciliation, not exactly one. -/
theorem reconcile_counterexample :
    (reconcile "ab" ce4F).1.cols = ["ab", "ab", "filename"]
    ∧ ¬((reconcile "ab" ce4F).1.cols.countP (fun c => c = "ab") = 1) := by
  decide

/-- Claim C4 (amended): for a well-formed store (no duplicate column
labels, row keys drawn from the columns) in which some column case-folds
to the canonical group-key name, and which — whenever the canonical
column is absent — has at most one case-variant of it, reconciliation
leaves exactly one group-key column, removes every case-variant
spelling, keeps the row count, and fills the group-key cell of each row
with the first non-missing value among the canonical column followed by
the variant columns in order. -/
theorem reconcile_amended (fk : String) (f : Frame)
    (hnd : f.cols.Nodup)
    (hvar : fk ∈ f.cols ∨ (f.cols.filter (fun c => isVariant fk c)).length ≤ 1)
    (hex : ∃ c ∈ f.cols, lowerStr c = fk)
    (hkeys : ∀ r ∈ f.rows, ∀ kv ∈ r, kv.1 ∈ f.cols) :
    (reconcile fk f).1.cols.countP (fun c => c = fk) = 1
    ∧ (reconcile fk f).1.cols.filter (fun c => isVariant fk c) = []
    ∧ (reconcile fk f).1.rows.length = f.rows.length
    ∧ ∀ i, i < f.rows.length →
        getC ((reconcile fk f).1.rows.getD i []) fk =
          (f.cols.filter (fun c => isVariant fk c)).foldl
            (fun a c => a.orElse (fun _ => getC (f.rows.getD i []) c))
            (getC (f.rows.getD i []) fk) := by
  have hvsmem : ∀ c ∈ f.cols.filter (fun c => isVariant fk c),
      lowerStr c = fk ∧ c ≠ fk := by
    intro c hc
    exact (isVariant_iff fk c).mp (List.of_mem_filter hc)
  have hfknv : fk ∉ f.cols.filter (fun c => isVariant fk c) := by
    intro hmem
    exact (hvsmem fk hmem).2 rfl
  by_cases hin : fk ∈ f.cols
  · -- canonical present: each variant is fillna-unified and dropped
    have hrec : reconcile fk f =
        ((f.cols.filter (fun c => isVariant fk c)).foldl
          (fun fr c => (fr.fillnaFrom fk c).dropCol c) f, f.cols) := by
      unfold reconcile
      rw [foldl_reconStep_filter,
        foldl_unify fk f.cols hin _ hvsmem f]
      simp
    rw [hrec]
    refine ⟨?_, ?_, ?_, ?_⟩
    · rw [foldl_unify_cols, foldl_filter_ne, List.countP_filter]
      have hnc : (f.cols.filter (fun c1 => isVariant fk c1)).contains fk
          = false := by
        refine Bool.eq_false_iff.mpr ?_
        intro hc
        exact hfknv (List.elem_iff.mp hc)
      have hcong : f.cols.countP
          (fun a => decide (a = fk) &&
            !((f.cols.filter (fun c => isVariant fk c)).contains a)) =
          f.cols.countP (fun c => c = fk) := by
        refine List.countP_congr ?_
        intro c _
        by_cases hc : c = fk
        · subst hc
          simp only [hnc, Bool.not_false, Bool.and_true]
        · simp [hc]
      rw [hcong, countP_eq_one_of_nodup f.cols fk hnd hin]
    · rw [foldl_unify_cols, foldl_filter_ne, List.filter_filter]
      rw [List.filter_eq_nil_iff]
      intro c hc
      cases hv : isVariant fk c
      · simp [hv]
      · have hmv : c ∈ f.cols.filter (fun c => isVariant fk c) :=
          List.mem_filter.mpr ⟨hc, hv⟩
        have : (f.cols.filter (fun c1 => isVariant fk c1)).contains c = true :=
          List.elem_iff.mpr hmv
        simp [hv, this, hc]
    · rw [foldl_unify_rows, List.length_map]
    · intro i hi
      rw [foldl_unify_rows]
      rw [List.getD_eq_getElem _ _ (by simpa using hi),
        List.getElem_map,
        List.getD_eq_getElem _ _ hi]
      exact getC_unifyRow fk _ _ (fun c hc => (hvsmem c hc).2)
        (hnd.filter _)
  · -- canonical absent: exactly one variant, renamed
    obtain ⟨c0, hc0, hlc0⟩ := hex
    have hc0ne : c0 ≠ fk := fun hh => hin (hh ▸ hc0)
    have hc0v : c0 ∈ f.cols.filter (fun c => isVariant fk c) :=
      List.mem_filter.mpr ⟨hc0, (isVariant_iff fk c0).mpr ⟨hlc0, hc0ne⟩⟩
    have hlen1 : (f.cols.filter (fun c => isVariant fk c)).length = 1 := by
      rcases hvar with h | h
      · exact absurd h hin
      · have : 0 < (f.cols.filter (fun c => isVariant fk c)).length :=
          List.length_pos.mpr (List.ne_nil_of_mem hc0v)
        omega
    obtain ⟨v, hv⟩ := List.length_eq_one.mp hlen1
    have hvv : v ∈ f.cols.filter (fun c => isVariant fk c) := by
      rw [hv]; exact List.mem_cons_self _ _
    have hvprops := hvsmem v hvv
    have hvcols : v ∈ f.cols := List.mem_of_mem_filter hvv
    have hrec : reconcile fk f =
        (f.renameCols [(v, fk)], (f.renameCols [(v, fk)]).cols) := by
      unfold reconcile
      rw [foldl_reconStep_filter, hv]
      simp only [List.foldl_cons, List.foldl_nil, reconStep,
        if_pos hvprops, if_neg hin]
      simp [dictInsert]
    rw [hrec]
    have hmapfun : ∀ c, (dictLookup [(v, fk)] c).getD c =
        if v = c then fk else c := by
      intro c
      by_cases h : v = c <;> simp [dictLookup, h]
    refine ⟨?_, ?_, ?_, ?_⟩
    · show ((f.renameCols [(v, fk)]).cols).countP (fun c => c = fk) = 1
      simp only [Frame.renameCols, List.countP_map]
      have hcong : f.cols.countP
          ((fun c => decide (c = fk)) ∘
            (fun c => (dictLookup [(v, fk)] c).getD c)) =
          f.cols.countP (fun c => c = v) := by
        refine List.countP_congr ?_
        intro c hc
        simp only [Function.comp_apply, hmapfun c]
        by_cases h : v = c
        · subst h
          simp
        · have hcfk : ¬(c = fk) := fun hh => hin (hh ▸ hc)
          have hcv : ¬(c = v) := fun hh => h hh.symm
          simp [h, hcfk, hcv]
      rw [hcong, countP_eq_one_of_nodup f.cols v hnd hvcols]
    · simp only [Frame.renameCols]
      rw [List.filter_eq_nil_iff]
      intro x hx
      obtain ⟨c, hc, hcx⟩ := List.mem_map.mp hx
      rw [hmapfun c] at hcx
      by_cases h : v = c
      · rw [if_pos h] at hcx
        subst hcx
        simp [isVariant]
      · rw [if_neg h] at hcx
        subst hcx
        intro hvar2
        have : c ∈ f.cols.filter (fun c1 => isVariant fk c1) :=
          List.mem_filter.mpr ⟨hc, hvar2⟩
        rw [hv] at this
        rcases List.mem_cons.mp this with rfl | h2
        · exact h rfl
        · cases h2
    · simp [Frame.renameCols]
    · intro i hi
      simp only [Frame.renameCols]
      rw [List.getD_eq_getElem _ _ (by simpa using hi),
        List.getElem_map, List.getD_eq_getElem _ _ hi]
      have hk : ∀ kv ∈ f.rows[i], kv.1 ≠ fk := by
        intro kv hkv
        have := hkeys f.rows[i] (List.getElem_mem _) kv hkv
        exact fun hh => hin (hh ▸ this)
      rw [getC_renameRow _ v fk hk, hv]
      have hnone : getC f.rows[i] fk = none := by
        refine getC_eq_none _ _ ?_
        intro hmem
        obtain ⟨kv, hkv, hkv2⟩ := List.mem_map.mp hmem
        exact hk kv hkv hkv2
      rw [hnone]
      simp [List.foldl_cons, Option.orElse]

/-- Witness for the amended C4 at the concrete store of the spec's own
example: columns `f`, `F`, one row with `f` missing and `F` set. -/
theorem reconcile_amended_witness :
    (["f", "F", "filename"] : List String).Nodup
    ∧ ("f" ∈ (["f", "F", "filename"] : List String)
        ∨ ((["f", "F", "filename"] : List String).filter
            (fun c => isVariant "f" c)).length ≤ 1)
    ∧ (∃ c ∈ (["f", "F", "filename"] : List String), lowerStr c = "f")
    ∧ ((reconcile "f"
        ⟨["f", "F", "filename"],
         [[("f", none), ("F", some (.str "x")),
           ("filename", some (.str "a"))]]⟩).1.cols.countP
          (fun c => c = "f") = 1
      ∧ (reconcile "f"
        ⟨["f", "F", "filename"],
         [[("f", none), ("F", some (.str "x")),
           ("filename", some (.str "a"))]]⟩).1.cols.filter
          (fun c => isVariant "f" c) = []
      ∧ (reconcile "f"
        ⟨["f", "F", "filename"],
         [[("f", none), ("F", some (.str "x")),
           ("filename", some (.str "a"))]]⟩).1.rows.length = 1
      ∧ ∀ i, i < ([[("f", none), ("F", some (.str "x")),
           ("filename", some (.str "a"))]] : List Row).length →
          getC ((reconcile "f"
            ⟨["f", "F", "filename"],
             [[("f", none), ("F", some (.str "x")),
               ("filename", some (.str "a"))]]⟩).1.rows.getD i []) "f" =
            ((["f", "F", "filename"] : List String).filter
               (fun c => isVariant "f" c)).foldl
              (fun a c => a.orElse (fun _ =>
                getC (([[("f", none), ("F", some (.str "x")),
                  ("filename", some (.str "a"))]] : List Row).getD i []) c))
              (getC (([[("f", none), ("F", some (.str "x")),
                ("filename", some (.str "a"))]] : List Row).getD i []) "f")) :=
  ⟨by decide, Or.inl (by decide), ⟨"F", by decide, by decide⟩,
   reconcile_amended "f"
     ⟨["f", "F", "filename"],
      [[("f", none), ("F", some (.str "x")), ("filename", some (.str "a"))]]⟩
     (by decide) (Or.inl (by decide)) ⟨"F", by decide, by decide⟩
     (by decide)⟩

/-- Witness for C10: the aborted run of an allow-list scenario leaves a
pre-existing store map untouched. -/
theorem allowlist_leaves_stores_spec_witness :
    (runPipeline "/out" "F" (some ["plantss"]) [c10photo] c10stores).2
      = some (.invalidFolderValue "rej" "/in/rej.jpg")
    ∧ (runPipeline "/out" "F" (some ["plantss"]) [c10photo] c10stores).1
      = c10stores :=
  ⟨by decide,
   allowlist_leaves_stores_spec "/out" "F" (some ["plantss"]) [c10photo]
     c10stores "rej" "/in/rej.jpg" (by decide)⟩

/-! ## Claim C3: unknown-key rejection -/

theorem dictLookup_foldl_insertK (vs : List String) (fk : String)
    (m0 : List (String × String)) (c : String) :
    dictLookup (vs.foldl (fun m c1 => dictInsert m c1 fk) m0) c =
      if c ∈ vs then some fk else dictLookup m0 c := by
  induction vs generalizing m0 with
  | nil => simp
  | cons a l ih =>
    rw [List.foldl_cons, ih]
    by_cases hc : c ∈ l
    · simp [hc, List.mem_cons, Or.inr hc]
    · rw [dictLookup_dictInsert]
      by_cases hca : c = a
      · subst hca
        simp [List.mem_cons, hc]
      · simp [List.mem_cons, hc, hca]

theorem dictInsert_ne_nil {α : Type} (m : List (String × α)) (k : String)
    (v : α) : dictInsert m k v ≠ [] := by
  cases m with
  | nil => simp [dictInsert]
  | cons a m =>
    obtain ⟨k1, v1⟩ := a
    by_cases h : k1 = k <;> simp [dictInsert, h]

theorem foldl_insertK_ne_nil (vs : List String) (fk : String)
    (m0 : List (String × String)) (h : m0 ≠ [] ∨ vs ≠ []) :
    vs.foldl (fun m c => dictInsert m c fk) m0 ≠ [] := by
  induction vs generalizing m0 with
  | nil =>
    rcases h with h | h
    · exact h
    · exact absurd rfl h
  | cons a l ih =>
    rw [List.foldl_cons]
    exact ih _ (Or.inl (dictInsert_ne_nil m0 a fk))

theorem foldl_rename (fk : String) (oc : List String) (hnin : fk ∉ oc)
    (vs : List String) (hvs : ∀ c ∈ vs, lowerStr c = fk ∧ c ≠ fk)
    (f0 : Frame) (m0 : List (String × String)) :
    vs.foldl (reconStep fk oc) (f0, m0) =
      (f0, vs.foldl (fun m c => dictInsert m c fk) m0) := by
  induction vs generalizing m0 with
  | nil => rfl
  | cons a l ih =>
    have ha := hvs a (List.mem_cons_self a l)
    simp only [List.foldl_cons, reconStep, if_pos ha, if_neg hnin]
    exact ih (fun c hc => hvs c (List.mem_cons_of_mem a hc)) _

/-- The three shapes the collision loop can leave behind: fillna-unify
when the canonical column exists, no-op when there is no variant, and a
rename otherwise. -/
theorem reconcile_shape (fk : String) (f : Frame) :
    (fk ∈ f.cols ∧ reconcile fk f =
        ((f.cols.filter (fun c => isVariant fk c)).foldl
          (fun fr c => (fr.fillnaFrom fk c).dropCol c) f, f.cols))
    ∨ (fk ∉ f.cols ∧ f.cols.filter (fun c => isVariant fk c) = []
        ∧ reconcile fk f = (f, f.cols))
    ∨ (fk ∉ f.cols ∧ f.cols.filter (fun c => isVariant fk c) ≠ []
        ∧ reconcile fk f =
          (f.renameCols (renMap fk f), (f.renameCols (renMap fk f)).cols)) := by
  have hvsmem : ∀ c ∈ f.cols.filter (fun c => isVariant fk c),
      lowerStr c = fk ∧ c ≠ fk :=
    fun c hc => (isVariant_iff fk c).mp (List.of_mem_filter hc)
  by_cases hin : fk ∈ f.cols
  · left
    refine ⟨hin, ?_⟩
    unfold reconcile
    rw [foldl_reconStep_filter, foldl_unify fk f.cols hin _ hvsmem f]
    simp
  · right
    by_cases hvs : f.cols.filter (fun c => isVariant fk c) = []
    · left
      refine ⟨hin, hvs, ?_⟩
      unfold reconcile
      rw [foldl_reconStep_filter, hvs]
      simp
    · right
      refine ⟨hin, hvs, ?_⟩
      unfold reconcile
      rw [foldl_reconStep_filter, foldl_rename fk f.cols hin _ hvsmem f []]
      have hne := foldl_insertK_ne_nil
        (f.cols.filter (fun c => isVariant fk c)) fk [] (Or.inr hvs)
      simp only [renMap] at *
      rw [if_neg hne]

theorem reconcile_rows_length (fk : String) (f : Frame) :
    (reconcile fk f).1.rows.length = f.rows.length := by
  rcases reconcile_shape fk f with ⟨_, hr⟩ | ⟨_, _, hr⟩ | ⟨_, _, hr⟩
  · rw [hr, foldl_unify_rows, List.length_map]
  · rw [hr]
  · rw [hr]
    simp [Frame.renameCols]

theorem reconcile_cols_ne_nil (fk : String) (f : Frame) (hc : f.cols ≠ []) :
    (reconcile fk f).1.cols ≠ [] := by
  rcases reconcile_shape fk f with ⟨hin, hr⟩ | ⟨_, _, hr⟩ | ⟨_, _, hr⟩ <;>
    rw [hr]
  · rw [foldl_unify_cols, foldl_filter_ne]
    have hfknv : (f.cols.filter (fun c => isVariant fk c)).contains fk
        = false := by
      refine Bool.eq_false_iff.mpr ?_
      intro hcc
      exact ((isVariant_iff fk fk).mp
        (List.of_mem_filter (List.elem_iff.mp hcc))).2 rfl
    refine List.ne_nil_of_mem (a := fk) ?_
    exact List.mem_filter.mpr ⟨hin, by simp only [hfknv, Bool.not_false]⟩
  · exact hc
  · simp only [Frame.renameCols, ne_eq, List.map_eq_nil_iff]
    exact hc

theorem reconcile_snd_lower (fk : String) (f : Frame)
    (hfk : lowerStr fk = fk) :
    (reconcile fk f).2.map lowerStr = f.cols.map lowerStr := by
  rcases reconcile_shape fk f with ⟨_, hr⟩ | ⟨_, _, hr⟩ | ⟨_, hvs, hr⟩ <;>
    rw [hr]
  simp only [Frame.renameCols, List.map_map]
  refine List.map_eq_map_iff.mpr ?_
  intro c hc
  simp only [Function.comp_apply, renMap, dictLookup_foldl_insertK,
    dictLookup]
  by_cases hcv : c ∈ f.cols.filter (fun c1 => isVariant fk c1)
  · rw [if_pos hcv, Option.getD_some]
    have := (isVariant_iff fk c).mp (List.of_mem_filter hcv)
    rw [hfk, this.1]
  · rw [if_neg hcv, Option.getD_none]

/-- Claim C3 as stated is false on the code: the names the check exempts
are the group-key column, `parsed_dict` and `image_description`, not the
identity key.  A metadata key literally named `parsed_dict` is not
reserved according to the claim and matches no store column
case-insensitively, yet the group is processed without any error. -/
theorem unknownkey_counterexample :
    "parsed_dict" ∈ allMetaKeys ce3Recs
    ∧ ("parsed_dict" ≠ "filename" ∧ "parsed_dict" ≠ "f"
        ∧ "parsed_dict" ≠ "image_description")
    ∧ lowerStr "parsed_dict" ∉ ce3F.cols.map lowerStr
    ∧ ce3F.rows ≠ []
    ∧ (processGroup "f" "/out/g/g.gpkg" (some ce3F) ce3Recs).isOk = true := by
  decide

/-- Claim C3 (amended): with the reserved names being the group-key
column, `parsed_dict` and `image_description`, any other incoming
metadata key matching no existing column case-insensitively makes the
group's processing fail with the schema-mismatch error naming an
offending key and the store path, before any write: the group loop
returns the store state unchanged. -/
theorem unknownkey_amended (fk gpath : String) (f : Frame)
    (records : List Record) (hfk : lowerStr fk = fk)
    (hrne : f.rows ≠ []) (hcne : f.cols ≠ [])
    (k : String) (hk : k ∈ allMetaKeys records)
    (hkfk : k ≠ fk) (hkpd : k ≠ "parsed_dict")
    (hkid : k ≠ "image_description")
    (hmiss : lowerStr k ∉ f.cols.map lowerStr) :
    ∃ k1, (k1 ∈ allMetaKeys records ∧ k1 ≠ fk ∧ k1 ≠ "parsed_dict"
        ∧ k1 ≠ "image_description" ∧ lowerStr k1 ∉ f.cols.map lowerStr)
      ∧ processGroup fk gpath (some f) records
        = .error (.unknownMetaKey k1 gpath)
      ∧ ∀ (output : String) (stores : Stores) (records1 : List Record)
          (g : Cell) (gs : List Cell),
          gpkgPath output g = gpath →
          dictLookup stores gpath = some f →
          groupOf fk records1 g = records →
          runGroups fk output records1 stores (g :: gs)
            = (stores, some (.unknownMetaKey k1 gpath)) := by
  have hsnd := reconcile_snd_lower fk f hfk
  have hcontains : ∀ k2 : String,
      lowerStr k2 ∉ f.cols.map lowerStr →
      ((reconcile fk f).2.map lowerStr).contains (lowerStr k2) = false := by
    intro k2 hm
    refine Bool.eq_false_iff.mpr ?_
    intro hcc
    rw [hsnd] at hcc
    exact hm (List.elem_iff.mp hcc)
  have hoffk : isOffending fk (reconcile fk f).2 k = true := by
    unfold isOffending
    rw [hcontains k hmiss]
    simp [hkfk, hkpd, hkid]
  obtain ⟨k1, hk1⟩ : ∃ k1, (allMetaKeys records).find?
      (fun k2 => isOffending fk (reconcile fk f).2 k2) = some k1 :=
    Option.isSome_iff_exists.mp
      (List.find?_isSome.mpr ⟨k, hk, hoffk⟩)
  have hk1mem := List.mem_of_find?_eq_some hk1
  have hk1off := List.find?_some hk1
  have hk1props : k1 ≠ fk ∧ k1 ≠ "parsed_dict" ∧ k1 ≠ "image_description"
      ∧ lowerStr k1 ∉ f.cols.map lowerStr := by
    unfold isOffending at hk1off
    rw [Bool.and_eq_true, Bool.not_eq_true', Bool.not_eq_true'] at hk1off
    obtain ⟨h1, h2⟩ := hk1off
    simp only [Bool.or_eq_false_iff, beq_eq_false_iff_ne, ne_eq] at h1
    refine ⟨h1.1.1, h1.1.2, h1.2, ?_⟩
    intro hm
    rw [← hsnd] at hm
    have h3 : ((reconcile fk f).2.map lowerStr).contains (lowerStr k1)
        = true := List.elem_iff.mpr hm
    rw [h2] at h3
    cases h3
  have hrowsne : (reconcile fk f).1.rows ≠ [] := by
    intro hh
    have hlen := reconcile_rows_length fk f
    rw [hh] at hlen
    exact hrne (List.length_eq_zero.mp hlen.symm)
  have hempty : (reconcile fk f).1.isEmpty = false := by
    unfold Frame.isEmpty
    rw [List.isEmpty_eq_false.mpr hrowsne,
      List.isEmpty_eq_false.mpr (reconcile_cols_ne_nil fk f hcne)]
    rfl
  have hproc : processGroup fk gpath (some f) records
      = .error (.unknownMetaKey k1 gpath) := by
    unfold processGroup reconcileStep
    simp only [hempty, Bool.false_eq_true, if_false, hk1]
  refine ⟨k1, ⟨hk1mem, hk1props.1, hk1props.2.1, hk1props.2.2.1,
    hk1props.2.2.2⟩, hproc, ?_⟩
  intro output stores records1 g gs hpath hlookup hgroup
  simp only [runGroups]
  rw [hpath, hlookup, hgroup, hproc]

/-- Witness for the amended C3: a store with columns `filename`, `f` and
one row, against a batch carrying the unknown key `color`. -/
theorem unknownkey_amended_witness :
    lowerStr "f" = "f"
    ∧ ce3F.rows ≠ [] ∧ ce3F.cols ≠ []
    ∧ "color" ∈ allMetaKeys c3wRecs
    ∧ ("color" ≠ "f" ∧ "color" ≠ "parsed_dict"
        ∧ "color" ≠ "image_description")
    ∧ lowerStr "color" ∉ ce3F.cols.map lowerStr
    ∧ (∃ k1, (k1 ∈ allMetaKeys c3wRecs ∧ k1 ≠ "f" ∧ k1 ≠ "parsed_dict"
        ∧ k1 ≠ "image_description" ∧ lowerStr k1 ∉ ce3F.cols.map lowerStr)
      ∧ processGroup "f" "/out/g/g.gpkg" (some ce3F) c3wRecs
        = .error (.unknownMetaKey k1 "/out/g/g.gpkg")
      ∧ ∀ (output : String) (stores : Stores) (records1 : List Record)
          (g : Cell) (gs : List Cell),
          gpkgPath output g = "/out/g/g.gpkg" →
          dictLookup stores "/out/g/g.gpkg" = some ce3F →
          groupOf "f" records1 g = c3wRecs →
          runGroups "f" output records1 stores (g :: gs)
            = (stores, some (.unknownMetaKey k1 "/out/g/g.gpkg"))) :=
  ⟨by decide, by decide, by decide, by decide, by decide, by decide,
   unknownkey_amended "f" "/out/g/g.gpkg" ce3F c3wRecs (by decide)
     (by decide) (by decide) "color" (by decide) (by decide) (by decide)
     (by decide) (by decide)⟩

/-! ## Claim C5: idempotence of the pipeline -/

theorem dedupFirst_go_nil {α : Type} [DecidableEq α] (l seen : List α)
    (h : ∀ x ∈ l, x ∈ seen) : dedupFirst.go seen l = [] := by
  induction l with
  | nil => rfl
  | cons a l ih =>
    rw [dedupFirst.go, if_pos (h a (List.mem_cons_self a l))]
    exact ih (fun x hx => h x (List.mem_cons_of_mem a hx))

theorem dedupFirst_go_append {α : Type} [DecidableEq α] (l : List α) :
    ∀ (seen : List α), l.Nodup → (∀ x ∈ l, x ∉ seen) →
    ∀ rest, (∀ x ∈ rest, x ∈ seen ∨ x ∈ l) →
    dedupFirst.go seen (l ++ rest) = l := by
  induction l with
  | nil =>
    intro seen _ _ rest hrest
    refine dedupFirst_go_nil rest seen ?_
    intro x hx
    rcases hrest x hx with h | h
    · exact h
    · cases h
  | cons a l ih =>
    intro seen hnd hsee rest hrest
    obtain ⟨hal, hl⟩ := List.nodup_cons.mp hnd
    rw [List.cons_append, dedupFirst.go,
      if_neg (hsee a (List.mem_cons_self a l))]
    congr 1
    refine ih (a :: seen) hl ?_ rest ?_
    · intro x hx
      rw [List.mem_cons]
      rintro (rfl | hxs)
      · exact hal hx
      · exact hsee x (List.mem_cons_of_mem a hx) hxs
    · intro x hx
      rcases hrest x hx with h | h
      · exact Or.inl (List.mem_cons_of_mem a h)
      · rcases List.mem_cons.mp h with rfl | h2
        · exact Or.inl (List.mem_cons_self x seen)
        · exact Or.inr h2

theorem dedupFirst_append_eq {α : Type} [DecidableEq α] (l rest : List α)
    (hnd : l.Nodup) (hsub : ∀ x ∈ rest, x ∈ l) :
    dedupFirst (l ++ rest) = l := by
  unfold dedupFirst
  exact dedupFirst_go_append l [] hnd (by simp) rest
    (fun x hx => Or.inr (hsub x hx))

theorem dedupFirst_eq_self {α : Type} [DecidableEq α] (l : List α)
    (hnd : l.Nodup) : dedupFirst l = l := by
  have := dedupFirst_append_eq l [] hnd (by simp)
  rwa [List.append_nil] at this

theorem mem_of_mem_dedupFirst_go {α : Type} [DecidableEq α] (l : List α) :
    ∀ (seen : List α) (x : α), x ∈ dedupFirst.go seen l → x ∈ l := by
  induction l with
  | nil =>
    intro seen x hx
    cases hx
  | cons a l ih =>
    intro seen x hx
    rw [dedupFirst.go] at hx
    split at hx
    · exact List.mem_cons_of_mem a (ih seen x hx)
    · rcases List.mem_cons.mp hx with rfl | h2
      · exact List.mem_cons_self x l
      · exact List.mem_cons_of_mem a (ih (a :: seen) x h2)

theorem mem_of_mem_dedupFirst {α : Type} [DecidableEq α] (l : List α)
    (x : α) (hx : x ∈ dedupFirst l) : x ∈ l :=
  mem_of_mem_dedupFirst_go l [] x hx

theorem find?_congr_mem {α : Type} (l : List α) (p q : α → Bool)
    (h : ∀ x ∈ l, p x = q x) : l.find? p = l.find? q := by
  induction l with
  | nil => rfl
  | cons a l ih =>
    rw [List.find?_cons, List.find?_cons, h a (List.mem_cons_self a l)]
    cases q a
    · exact ih (fun x hx => h x (List.mem_cons_of_mem a hx))
    · rfl

theorem getC_popRowStep (tr : String → Option String) (r : Row)
    (kv : String × String) (c : String) :
    getC (popRowStep tr r kv) c =
      if (tr kv.1 == some c) then some (.str kv.2) else getC r c := by
  unfold popRowStep
  cases ht : tr kv.1 with
  | some c1 =>
    by_cases hc : c1 = c
    · subst hc
      rw [getC_setC]
      simp
    · rw [getC_setC, if_neg (fun hh : c = c1 => hc hh.symm)]
      have hb : ((some c1 : Option String) == some c) = false := by
        simp [hc]
      rw [hb]
      simp
  | none => simp

theorem getC_popRow (tr : String → Option String)
    (pd : List (String × String)) (r : Row) (c : String) :
    getC (popRow tr pd r) c =
      match pd.reverse.find? (fun kv => tr kv.1 == some c) with
      | some kv => some (.str kv.2)
      | none => getC r c := by
  induction pd generalizing r with
  | nil => rfl
  | cons kv pd ih =>
    show getC (popRow tr pd (popRowStep tr r kv)) c = _
    rw [ih, List.reverse_cons, List.find?_append]
    cases hf : pd.reverse.find? (fun kv => tr kv.1 == some c) with
    | some kv1 => rfl
    | none =>
      rw [Option.none_or]
      show getC (popRowStep tr r kv) c = _
      rw [getC_popRowStep]
      rw [List.find?_cons]
      cases hp : (tr kv.1 == some c)
      · simp [hp]
      · simp [hp]

theorem getD_set_self (l : List Row) (i : Nat) (x : Row)
    (h : i < l.length) : (l.set i x).getD i [] = x := by
  rw [List.getD_eq_getElem _ _ (by simpa using h), List.getElem_set_self]

theorem getD_set_ne (l : List Row) (i j : Nat) (x : Row) (h : j ≠ i) :
    (l.set i x).getD j [] = l.getD j [] := by
  rw [List.getD_eq_getElem?_getD, List.getElem?_set_ne (fun hh => h hh.symm),
    List.getD_eq_getElem?_getD]

theorem getD_map_row (l : List Row) (f : Row → Row) (i : Nat)
    (h : i < l.length) : (l.map f).getD i [] = f (l.getD i []) := by
  rw [List.getD_eq_getElem _ _ (by simpa using h), List.getElem_map,
    List.getD_eq_getElem _ _ h]

theorem keys_dictInsert {α : Type} (d : List (String × α)) (k : String)
    (v : α) (x : String) (hx : x ∈ (dictInsert d k v).map Prod.fst) :
    x ∈ d.map Prod.fst ∨ x = k := by
  induction d with
  | nil =>
    simp only [dictInsert, List.map_cons, List.map_nil,
      List.mem_singleton] at hx
    exact Or.inr hx
  | cons a d ih =>
    obtain ⟨k1, v1⟩ := a
    by_cases h : k1 = k
    · simp only [dictInsert, if_pos h, List.map_cons, List.mem_cons] at hx
      rcases hx with rfl | hx
      · exact Or.inr rfl
      · exact Or.inl (List.mem_cons_of_mem _ hx)
    · simp only [dictInsert, if_neg h, List.map_cons, List.mem_cons] at hx
      rcases hx with rfl | hx
      · exact Or.inl (List.mem_cons_self _ _)
      · rcases ih hx with h2 | h2
        · exact Or.inl (List.mem_cons_of_mem _ h2)
        · exact Or.inr h2

theorem stdKeys_nodup (fk : String) (hfkb : fk ∉ baseKeys)
    (hfkp : fk ≠ "parsed_dict") : (stdKeys fk).Nodup := by
  rw [stdKeys, List.nodup_append]
  refine ⟨by decide, ?_, ?_⟩
  · simp [List.nodup_cons, hfkp]
  · intro a ha hmem
    rcases List.mem_cons.mp hmem with rfl | h2
    · exact hfkb ha
    · rw [List.mem_singleton] at h2
      subst h2
      revert ha
      decide

theorem cols_frameOfRecords (fk : String) (rs : List Record) (hne : rs ≠ [])
    (hkeys : ∀ r ∈ rs, r.map Prod.fst = stdKeys fk)
    (hnd : (stdKeys fk).Nodup) :
    (frameOfRecords rs).cols = stdKeys fk := by
  unfold frameOfRecords
  cases rs with
  | nil => exact absurd rfl hne
  | cons r0 rs =>
    simp only [List.map_cons, List.flatten_cons]
    rw [hkeys r0 (List.mem_cons_self r0 rs)]
    refine dedupFirst_append_eq _ _ hnd ?_
    intro x hx
    obtain ⟨l, hl, hx2⟩ := List.mem_flatten.mp hx
    obtain ⟨r, hr, rfl⟩ := List.mem_map.mp hl
    rw [hkeys r (List.mem_cons_of_mem r0 hr)] at hx2
    exact hx2

theorem rows_frameOfRecords (rs : List Record) :
    (frameOfRecords rs).rows = rs := rfl

theorem addColStep_cols_mem (fk : String) (g : Frame) (mk1 c : String)
    (hc : c ∈ g.cols) : c ∈ (addColStep fk g mk1).cols := by
  unfold addColStep
  split
  · simp only [Frame.addColNone]
    split
    · exact hc
    · exact List.mem_append_left _ hc
  · exact hc

theorem addColStep_cols_sub (fk : String) (g : Frame) (mk1 c : String)
    (hc : c ∈ (addColStep fk g mk1).cols) : c ∈ g.cols ∨ c = mk1 := by
  unfold addColStep at hc
  split at hc
  · simp only [Frame.addColNone] at hc
    split at hc
    · exact Or.inl hc
    · rcases List.mem_append.mp hc with h | h
      · exact Or.inl h
      · exact Or.inr (List.mem_singleton.mp h)
  · exact Or.inl hc

theorem addfold_cols_mem (fk : String) (amk : List String) (g : Frame)
    (c : String) (hc : c ∈ g.cols) :
    c ∈ (amk.foldl (addColStep fk) g).cols := by
  induction amk generalizing g with
  | nil => exact hc
  | cons mk1 amk ih =>
    exact ih (addColStep fk g mk1) (addColStep_cols_mem fk g mk1 c hc)

theorem addfold_cols_sub (fk : String) (amk : List String) (g : Frame)
    (c : String) (hc : c ∈ (amk.foldl (addColStep fk) g).cols) :
    c ∈ g.cols ∨ c ∈ amk := by
  induction amk generalizing g with
  | nil => exact Or.inl hc
  | cons mk1 amk ih =>
    rcases ih (addColStep fk g mk1) hc with h | h
    · rcases addColStep_cols_sub fk g mk1 c h with h2 | h2
      · exact Or.inl h2
      · exact Or.inr (h2 ▸ List.mem_cons_self _ _)
    · exact Or.inr (List.mem_cons_of_mem _ h)

theorem addfold_mem_of_meta (fk : String) (amk : List String) (g : Frame)
    (k : String) (hk : k ∈ amk)
    (hres : ¬(k = fk ∨ k = "parsed_dict" ∨ k = "image_description")) :
    k ∈ (amk.foldl (addColStep fk) g).cols := by
  induction amk generalizing g with
  | nil => cases hk
  | cons mk1 amk ih =>
    rcases List.mem_cons.mp hk with rfl | hm
    · by_cases hct : g.cols.contains k
      · exact addfold_cols_mem fk amk _ k
          (addColStep_cols_mem fk g k k (List.elem_iff.mp hct))
      · have : (addColStep fk g k).cols = g.cols ++ [k] := by
          unfold addColStep
          rw [if_pos ⟨hres, hct⟩]
          simp only [Frame.addColNone]
          rw [if_neg hct]
        refine addfold_cols_mem fk amk _ k ?_
        rw [this]
        exact List.mem_append_right _ (List.mem_singleton.mpr rfl)
    · exact ih (addColStep fk g mk1) hm

theorem addColStep_nodup (fk : String) (g : Frame) (mk1 : String)
    (h : g.cols.Nodup) : (addColStep fk g mk1).cols.Nodup := by
  unfold addColStep
  split
  · next hcond =>
    simp only [Frame.addColNone]
    rw [if_neg hcond.2]
    rw [List.nodup_append]
    refine ⟨h, List.nodup_singleton _, ?_⟩
    intro a ha hmem
    rw [List.mem_singleton] at hmem
    subst hmem
    exact hcond.2 (List.elem_iff.mpr ha)
  · exact h

theorem addfold_nodup (fk : String) (amk : List String) (g : Frame)
    (h : g.cols.Nodup) : (amk.foldl (addColStep fk) g).cols.Nodup := by
  induction amk generalizing g with
  | nil => exact h
  | cons mk1 amk ih => exact ih _ (addColStep_nodup fk g mk1 h)

theorem addColStep_spec (fk : String) (g : Frame) (mk1 : String)
    (hkeys : ∀ r ∈ g.rows, ∀ kv ∈ r, kv.1 ∈ g.cols) :
    (addColStep fk g mk1).rows.length = g.rows.length
    ∧ (∀ r ∈ (addColStep fk g mk1).rows, ∀ kv ∈ r,
        kv.1 ∈ (addColStep fk g mk1).cols)
    ∧ ∀ i c, getC ((addColStep fk g mk1).rows.getD i []) c
        = getC (g.rows.getD i []) c := by
  unfold addColStep
  split
  · next hcond =>
    simp only [Frame.addColNone]
    rw [if_neg hcond.2]
    refine ⟨List.length_map _ _, ?_, ?_⟩
    · intro r hr kv hkv
      obtain ⟨r0, hr0, rfl⟩ := List.mem_map.mp hr
      rcases keys_dictInsert r0 mk1 none kv.1
          (List.mem_map.mpr ⟨kv, hkv, rfl⟩) with h2 | h2
      · obtain ⟨kv2, hkv2, hkv2e⟩ := List.mem_map.mp h2
        exact List.mem_append_left _ (hkv2e ▸ hkeys r0 hr0 kv2 hkv2)
      · exact List.mem_append_right _ (List.mem_singleton.mpr h2)
    · intro i c
      by_cases hi : i < g.rows.length
      · rw [getD_map_row _ _ _ hi]
        show getC (setC (g.rows.getD i []) mk1 none) c = _
        rw [getC_setC]
        by_cases hcm : c = mk1
        · subst hcm
          rw [if_pos rfl]
          refine (getC_eq_none _ _ ?_).symm
          intro hmem
          refine hcond.2 (List.elem_iff.mpr ?_)
          have hig : g.rows.getD i [] ∈ g.rows := by
            rw [List.getD_eq_getElem _ _ (by simpa using hi)]
            exact List.getElem_mem _
          obtain ⟨kv, hkv, hkve⟩ := List.mem_map.mp hmem
          exact hkve ▸ hkeys _ hig kv hkv
        · rw [if_neg hcm]
      · have h1 : (g.rows.map (fun r => setC r mk1 none)).getD i [] = [] := by
          refine List.getD_eq_default _ _ ?_
          rw [List.length_map]
          omega
        have h2 : g.rows.getD i [] = [] :=
          List.getD_eq_default _ _ (by omega)
        rw [h1, h2]
  · exact ⟨rfl, hkeys, fun i c => rfl⟩

theorem addfold_spec (fk : String) (amk : List String) (g : Frame)
    (hkeys : ∀ r ∈ g.rows, ∀ kv ∈ r, kv.1 ∈ g.cols) :
    (amk.foldl (addColStep fk) g).rows.length = g.rows.length
    ∧ (∀ r ∈ (amk.foldl (addColStep fk) g).rows, ∀ kv ∈ r,
        kv.1 ∈ (amk.foldl (addColStep fk) g).cols)
    ∧ ∀ i c, getC ((amk.foldl (addColStep fk) g).rows.getD i []) c
        = getC (g.rows.getD i []) c := by
  induction amk generalizing g with
  | nil => exact ⟨rfl, hkeys, fun i c => rfl⟩
  | cons mk1 amk ih =>
    obtain ⟨h1, h2, h3⟩ := addColStep_spec fk g mk1 hkeys
    obtain ⟨ih1, ih2, ih3⟩ := ih (addColStep fk g mk1) h2
    exact ⟨ih1.trans h1, ih2, fun i c => (ih3 i c).trans (h3 i c)⟩

theorem dictLookup_mem_values {α : Type} (m : List (String × α))
    (k : String) (v : α) (h : dictLookup m k = some v) :
    v ∈ m.map Prod.snd := by
  induction m with
  | nil => cases h
  | cons a m ih =>
    obtain ⟨k1, v1⟩ := a
    by_cases hk : k1 = k
    · rw [dictLookup, if_pos hk] at h
      injection h with h
      exact h ▸ List.mem_cons_self _ _
    · rw [dictLookup, if_neg hk] at h
      exact List.mem_cons_of_mem _ (ih h)

theorem range_foldl_succ {α : Type} (f : α → Nat → α) (a : α) (m : Nat) :
    (List.range (m + 1)).foldl f a = f ((List.range m).foldl f a) m := by
  rw [List.range_succ, List.foldl_append, List.foldl_cons, List.foldl_nil]

theorem popFreshInner_spec (i : Nat) (pd : List (String × String))
    (g : Frame) (hi : i < g.rows.length) :
    (pd.foldl (popFreshInner i) g).cols = g.cols
    ∧ (pd.foldl (popFreshInner i) g).rows.length = g.rows.length
    ∧ (∀ j, j ≠ i →
        (pd.foldl (popFreshInner i) g).rows.getD j [] = g.rows.getD j [])
    ∧ (pd.foldl (popFreshInner i) g).rows.getD i [] =
        popRow (fun k => if g.cols.contains k then some k else none) pd
          (g.rows.getD i []) := by
  induction pd generalizing g with
  | nil => exact ⟨rfl, rfl, fun j _ => rfl, rfl⟩
  | cons kv pd ih =>
    rw [List.foldl_cons]
    by_cases hct : g.cols.contains kv.1
    · have hmem : kv.1 ∈ g.cols := List.elem_iff.mp hct
      have hc1 : (popFreshInner i g kv).cols = g.cols := by
        simp [popFreshInner, Frame.locSet, hct, hmem]
      have hr1 : (popFreshInner i g kv).rows =
          g.rows.set i (setC (g.rows.getD i []) kv.1 (some (.str kv.2))) := by
        simp [popFreshInner, Frame.locSet, hct, hmem, List.getD]
      have hlen1 : (popFreshInner i g kv).rows.length = g.rows.length := by
        rw [hr1, List.length_set]
      obtain ⟨ih1, ih2, ih3, ih4⟩ := ih (popFreshInner i g kv)
        (by rw [hlen1]; exact hi)
      refine ⟨ih1.trans hc1, ih2.trans hlen1, ?_, ?_⟩
      · intro j hj
        rw [ih3 j hj, hr1, getD_set_ne _ _ _ _ hj]
      · rw [ih4, hc1, hr1, getD_set_self _ _ _ hi]
        show popRow _ pd _ =
          popRow _ pd (popRowStep _ (g.rows.getD i []) kv)
        congr 1
        simp [popRowStep, hct, hmem]
    · have hnmem : kv.1 ∉ g.cols := fun h => hct (List.elem_iff.mpr h)
      have hg : popFreshInner i g kv = g := by
        simp [popFreshInner, hct, hnmem]
      rw [hg]
      obtain ⟨ih1, ih2, ih3, ih4⟩ := ih g hi
      refine ⟨ih1, ih2, ih3, ?_⟩
      rw [ih4]
      show popRow _ pd _ = popRow _ pd (popRowStep _ (g.rows.getD i []) kv)
      congr 1
      simp [popRowStep, hct, hnmem]

theorem popFreshAux (f : Frame) (m : Nat) (hm : m ≤ f.rows.length) :
    ((List.range m).foldl popFreshOuter f).cols = f.cols
    ∧ ((List.range m).foldl popFreshOuter f).rows.length = f.rows.length
    ∧ (∀ i, m ≤ i →
        ((List.range m).foldl popFreshOuter f).rows.getD i []
          = f.rows.getD i [])
    ∧ (∀ i, i < m →
        ((List.range m).foldl popFreshOuter f).rows.getD i [] =
          popRow (fun k => if f.cols.contains k then some k else none)
            (pdOf (f.rows.getD i [])) (f.rows.getD i [])) := by
  induction m with
  | zero => exact ⟨rfl, rfl, fun i _ => rfl, fun i hi => absurd hi (by omega)⟩
  | succ m ih =>
    obtain ⟨ih1, ih2, ih3, ih4⟩ := ih (by omega)
    rw [range_foldl_succ]
    have hm1 : m < f.rows.length := by omega
    have hrowm : ((List.range m).foldl popFreshOuter f).rows.getD m []
        = f.rows.getD m [] := ih3 m (le_refl m)
    have him : m < ((List.range m).foldl popFreshOuter f).rows.length := by
      rw [ih2]
      omega
    obtain ⟨s1, s2, s3, s4⟩ := popFreshInner_spec m
      (pdOf (((List.range m).foldl popFreshOuter f).rows.getD m []))
      ((List.range m).foldl popFreshOuter f) him
    refine ⟨?_, ?_, ?_, ?_⟩
    · exact (show (popFreshOuter _ m).cols = _ from s1).trans ih1
    · exact (show (popFreshOuter _ m).rows.length = _ from s2).trans ih2
    · intro i hi
      refine (show (popFreshOuter _ m).rows.getD i [] = _ from
        s3 i (by omega)).trans (ih3 i (by omega))
    · intro i hi
      rcases Nat.lt_succ_iff_lt_or_eq.mp hi with h | rfl
      · exact (show (popFreshOuter _ m).rows.getD i [] = _ from
          s3 i (by omega)).trans (ih4 i h)
      · refine (show (popFreshOuter _ i).rows.getD i [] = _ from s4).trans ?_
        rw [hrowm, ih1]

theorem popFrameFresh_spec (f : Frame) :
    (popFrameFresh f).cols = f.cols
    ∧ (popFrameFresh f).rows.length = f.rows.length
    ∧ ∀ i, i < f.rows.length →
        (popFrameFresh f).rows.getD i [] =
          popRow (fun k => if f.cols.contains k then some k else none)
            (pdOf (f.rows.getD i [])) (f.rows.getD i []) := by
  obtain ⟨h1, h2, _, h4⟩ := popFreshAux f f.rows.length (le_refl _)
  exact ⟨h1, h2, h4⟩

theorem locSet_cols_cases (g : Frame) (i : Nat) (c : String) (v : Cell) :
    (g.locSet i c v).cols = g.cols ∨ (g.locSet i c v).cols = g.cols ++ [c] := by
  unfold Frame.locSet
  by_cases h : g.cols.contains c
  · have hmem := List.elem_iff.mp h
    exact Or.inl (by simp [h, hmem])
  · have hnmem : c ∉ g.cols := fun hh => h (List.elem_iff.mpr hh)
    exact Or.inr (by simp [h, hnmem])

theorem popKnownInner_spec (lmap : List (String × String)) (i : Nat)
    (pd : List (String × String)) (g : Frame) (hi : i < g.rows.length) :
    (∀ c ∈ (pd.foldl (popKnownInner lmap i) g).cols,
        c ∈ g.cols ∨ c ∈ lmap.map Prod.snd)
    ∧ (pd.foldl (popKnownInner lmap i) g).rows.length = g.rows.length
    ∧ (∀ j, j ≠ i →
        (pd.foldl (popKnownInner lmap i) g).rows.getD j [] = g.rows.getD j [])
    ∧ (pd.foldl (popKnownInner lmap i) g).rows.getD i [] =
        popRow (fun k => dictLookup lmap (lowerStr k)) pd
          (g.rows.getD i []) := by
  induction pd generalizing g with
  | nil => exact ⟨fun c hc => Or.inl hc, rfl, fun j _ => rfl, rfl⟩
  | cons kv pd ih =>
    rw [List.foldl_cons]
    cases hlk : dictLookup lmap (lowerStr kv.1) with
    | some actual =>
      have hstep : popKnownInner lmap i g kv
          = g.locSet i actual (some (.str kv.2)) := by
        simp [popKnownInner, hlk]
      have hr1 : (popKnownInner lmap i g kv).rows =
          g.rows.set i (setC (g.rows.getD i []) actual (some (.str kv.2))) := by
        rw [hstep]
        rfl
      have hlen1 : (popKnownInner lmap i g kv).rows.length = g.rows.length := by
        rw [hr1, List.length_set]
      obtain ⟨ih1, ih2, ih3, ih4⟩ := ih (popKnownInner lmap i g kv)
        (by rw [hlen1]; exact hi)
      refine ⟨?_, ih2.trans hlen1, ?_, ?_⟩
      · intro c hc
        rcases ih1 c hc with h | h
        · rw [hstep] at h
          rcases locSet_cols_cases g i actual (some (.str kv.2)) with he | he
          · rw [he] at h
            exact Or.inl h
          · rw [he] at h
            rcases List.mem_append.mp h with h2 | h2
            · exact Or.inl h2
            · rw [List.mem_singleton] at h2
              subst h2
              exact Or.inr (dictLookup_mem_values lmap _ c hlk)
        · exact Or.inr h
      · intro j hj
        rw [ih3 j hj, hr1, getD_set_ne _ _ _ _ hj]
      · rw [ih4, hr1, getD_set_self _ _ _ hi]
        show popRow _ pd _ =
          popRow _ pd (popRowStep _ (g.rows.getD i []) kv)
        congr 1
        simp [popRowStep, hlk]
    | none =>
      have hg : popKnownInner lmap i g kv = g := by
        simp [popKnownInner, hlk]
      rw [hg]
      obtain ⟨ih1, ih2, ih3, ih4⟩ := ih g hi
      refine ⟨ih1, ih2, ih3, ?_⟩
      rw [ih4]
      show popRow _ pd _ = popRow _ pd (popRowStep _ (g.rows.getD i []) kv)
      congr 1
      simp [popRowStep, hlk]

theorem popKnownAux (lmap : List (String × String)) (f : Frame) (m : Nat)
    (hm : m ≤ f.rows.length) :
    (∀ c ∈ ((List.range m).foldl (popKnownOuter lmap) f).cols,
        c ∈ f.cols ∨ c ∈ lmap.map Prod.snd)
    ∧ ((List.range m).foldl (popKnownOuter lmap) f).rows.length
        = f.rows.length
    ∧ (∀ i, m ≤ i →
        ((List.range m).foldl (popKnownOuter lmap) f).rows.getD i []
          = f.rows.getD i [])
    ∧ (∀ i, i < m →
        ((List.range m).foldl (popKnownOuter lmap) f).rows.getD i [] =
          popRow (fun k => dictLookup lmap (lowerStr k))
            (pdOf (f.rows.getD i [])) (f.rows.getD i [])) := by
  induction m with
  | zero =>
    exact ⟨fun c hc => Or.inl hc, rfl, fun i _ => rfl,
      fun i hi => absurd hi (by omega)⟩
  | succ m ih =>
    obtain ⟨ih1, ih2, ih3, ih4⟩ := ih (by omega)
    rw [range_foldl_succ]
    have hrowm : ((List.range m).foldl (popKnownOuter lmap) f).rows.getD m []
        = f.rows.getD m [] := ih3 m (le_refl m)
    have him : m < ((List.range m).foldl (popKnownOuter lmap) f).rows.length := by
      rw [ih2]
      omega
    obtain ⟨s1, s2, s3, s4⟩ := popKnownInner_spec lmap m
      (pdOf (((List.range m).foldl (popKnownOuter lmap) f).rows.getD m []))
      ((List.range m).foldl (popKnownOuter lmap) f) him
    refine ⟨?_, ?_, ?_, ?_⟩
    · intro c hc
      rcases s1 c hc with h | h
      · exact ih1 c h
      · exact Or.inr h
    · exact (show (popKnownOuter lmap _ m).rows.length = _ from s2).trans ih2
    · intro i hi
      exact (show (popKnownOuter lmap _ m).rows.getD i [] = _ from
        s3 i (by omega)).trans (ih3 i (by omega))
    · intro i hi
      rcases Nat.lt_succ_iff_lt_or_eq.mp hi with h | rfl
      · exact (show (popKnownOuter lmap _ m).rows.getD i [] = _ from
          s3 i (by omega)).trans (ih4 i h)
      · refine (show (popKnownOuter lmap _ i).rows.getD i [] = _ from
          s4).trans ?_
        rw [hrowm]

theorem popFrameKnown_spec (lmap : List (String × String)) (f : Frame) :
    (∀ c ∈ (popFrameKnown lmap f).cols, c ∈ f.cols ∨ c ∈ lmap.map Prod.snd)
    ∧ (popFrameKnown lmap f).rows.length = f.rows.length
    ∧ ∀ i, i < f.rows.length →
        (popFrameKnown lmap f).rows.getD i [] =
          popRow (fun k => dictLookup lmap (lowerStr k))
            (pdOf (f.rows.getD i [])) (f.rows.getD i []) := by
  obtain ⟨h1, h2, _, h4⟩ := popKnownAux lmap f f.rows.length (le_refl _)
  exact ⟨h1, h2, h4⟩

theorem mem_dedupFirst_go_iff {α : Type} [DecidableEq α] (l : List α) :
    ∀ (seen : List α) (x : α),
    x ∈ dedupFirst.go seen l ↔ x ∈ l ∧ x ∉ seen := by
  induction l with
  | nil =>
    intro seen x
    simp [dedupFirst.go]
  | cons a l ih =>
    intro seen x
    rw [dedupFirst.go]
    split
    · next ha =>
      rw [ih seen x, List.mem_cons]
      constructor
      · rintro ⟨h1, h2⟩
        exact ⟨Or.inr h1, h2⟩
      · rintro ⟨h1 | h1, h2⟩
        · subst h1
          exact absurd ha h2
        · exact ⟨h1, h2⟩
    · next ha =>
      simp only [List.mem_cons, ih (a :: seen) x]
      constructor
      · rintro (rfl | ⟨h1, h2⟩)
        · exact ⟨Or.inl rfl, ha⟩
        · exact ⟨Or.inr h1, fun hs => h2 (Or.inr hs)⟩
      · rintro ⟨h1 | h1, h2⟩
        · exact Or.inl h1
        · by_cases hxa : x = a
          · exact Or.inl hxa
          · refine Or.inr ⟨h1, fun hs => ?_⟩
            rcases hs with hs2 | hs2
            · exact hxa hs2
            · exact h2 hs2

theorem mem_dedupFirst_of_mem {α : Type} [DecidableEq α] (l : List α)
    (x : α) (hx : x ∈ l) : x ∈ dedupFirst l := by
  unfold dedupFirst
  rw [mem_dedupFirst_go_iff]
  exact ⟨hx, by simp⟩

theorem wfRecord_keys (fk : String) (r : Record)
    (h : wfRecord fk r = true) : r.map Prod.fst = stdKeys fk := by
  unfold wfRecord at h
  rw [Bool.and_eq_true, Bool.and_eq_true] at h
  exact beq_iff_eq.mp h.1.1

theorem wfRecord_pdcell (fk : String) (r : Record)
    (h : wfRecord fk r = true) :
    getC r "parsed_dict" = some (.dict (pdOf r)) := by
  unfold wfRecord at h
  rw [Bool.and_eq_true, Bool.and_eq_true] at h
  have h2 := h.1.2
  cases hc : getC r "parsed_dict" with
  | none => rw [hc] at h2; cases h2
  | some v =>
    cases v with
    | dict pd => rw [pdOf, hc]
    | str s => rw [hc] at h2; cases h2
    | num q => rw [hc] at h2; cases h2
    | pt x y z => rw [hc] at h2; cases h2

theorem wfRecord_pd (fk : String) (r : Record) (h : wfRecord fk r = true) :
    ∀ kv ∈ pdOf r, lowerStr kv.1 = kv.1 ∧ kv.1 ≠ "filename" := by
  intro kv hkv
  unfold wfRecord at h
  rw [Bool.and_eq_true, Bool.and_eq_true] at h
  have h2 := h.1.2
  rw [wfRecord_pdcell fk r (by
    unfold wfRecord
    rw [Bool.and_eq_true, Bool.and_eq_true]
    exact h)] at h2
  have h3 := List.all_eq_true.mp h2 kv hkv
  rw [Bool.and_eq_true] at h3
  exact ⟨beq_iff_eq.mp h3.1, bne_iff_ne.mp h3.2⟩

theorem wfRecord_fname (fk : String) (r : Record)
    (h : wfRecord fk r = true) :
    ∃ s, getC r "filename" = some (.str s) := by
  unfold wfRecord at h
  rw [Bool.and_eq_true, Bool.and_eq_true] at h
  have h2 := h.2
  cases hc : getC r "filename" with
  | none => rw [hc] at h2; cases h2
  | some v =>
    cases v with
    | str s => exact ⟨s, rfl⟩
    | dict pd => rw [hc] at h2; cases h2
    | num q => rw [hc] at h2; cases h2
    | pt x y z => rw [hc] at h2; cases h2

theorem pdKey_mem_amk (rs : List Record) (r : Record) (hr : r ∈ rs)
    (k : String) (hk : k ∈ (pdOf r).map Prod.fst) : k ∈ allMetaKeys rs := by
  unfold allMetaKeys
  refine mem_dedupFirst_of_mem _ _ ?_
  exact List.mem_flatten.mpr ⟨_, List.mem_map.mpr ⟨r, hr, rfl⟩, hk⟩

theorem amk_props (fk : String) (rs : List Record)
    (hwf : ∀ r ∈ rs, wfRecord fk r = true) :
    ∀ k ∈ allMetaKeys rs, lowerStr k = k ∧ k ≠ "filename" := by
  intro k hk
  unfold allMetaKeys at hk
  obtain ⟨l, hl, hk2⟩ := List.mem_flatten.mp (mem_of_mem_dedupFirst _ _ hk)
  obtain ⟨r, hr, rfl⟩ := List.mem_map.mp hl
  obtain ⟨kv, hkv, rfl⟩ := List.mem_map.mp hk2
  exact wfRecord_pd fk r (hwf r hr) kv hkv

theorem freshBuild_spec (fk : String) (rs : List Record)
    (hfkb : fk ∉ baseKeys) (hfkp : fk ≠ "parsed_dict")
    (hwf : ∀ r ∈ rs, wfRecord fk r = true) (hne : rs ≠ []) :
    (freshBuild fk (allMetaKeys rs) rs).cols.Nodup
    ∧ "parsed_dict" ∉ (freshBuild fk (allMetaKeys rs) rs).cols
    ∧ (∀ c ∈ (freshBuild fk (allMetaKeys rs) rs).cols,
        c ∈ stdKeys fk ∨ c ∈ allMetaKeys rs)
    ∧ (∀ c ∈ stdKeys fk, c ≠ "parsed_dict" →
        c ∈ (freshBuild fk (allMetaKeys rs) rs).cols)
    ∧ (∀ k ∈ allMetaKeys rs, k ≠ "parsed_dict" →
        k ∈ (freshBuild fk (allMetaKeys rs) rs).cols)
    ∧ (freshBuild fk (allMetaKeys rs) rs).rows.length = rs.length
    ∧ ∀ i, i < rs.length → ∀ c, c ≠ "parsed_dict" →
        getC ((freshBuild fk (allMetaKeys rs) rs).rows.getD i []) c
          = resolveCell (rs.getD i []) c := by
  have hnd0 := stdKeys_nodup fk hfkb hfkp
  have hkeys : ∀ r ∈ rs, r.map Prod.fst = stdKeys fk :=
    fun r hr => wfRecord_keys fk r (hwf r hr)
  have hcols0 : (frameOfRecords rs).cols = stdKeys fk :=
    cols_frameOfRecords fk rs hne hkeys hnd0
  have hkeys0 : ∀ r ∈ (frameOfRecords rs).rows, ∀ kv ∈ r,
      kv.1 ∈ (frameOfRecords rs).cols := by
    intro r hr kv hkv
    rw [hcols0, ← hkeys r hr]
    exact List.mem_map.mpr ⟨kv, hkv, rfl⟩
  obtain ⟨ha1, ha2, ha3⟩ :=
    addfold_spec fk (allMetaKeys rs) (frameOfRecords rs) hkeys0
  have hNnodup :
      ((allMetaKeys rs).foldl (addColStep fk) (frameOfRecords rs)).cols.Nodup :=
    addfold_nodup _ _ _ (hcols0 ▸ hnd0)
  have hNlen :
      ((allMetaKeys rs).foldl (addColStep fk) (frameOfRecords rs)).rows.length
        = rs.length := ha1
  have hNmem_std : ∀ c ∈ stdKeys fk,
      c ∈ ((allMetaKeys rs).foldl (addColStep fk) (frameOfRecords rs)).cols :=
    fun c hc => addfold_cols_mem _ _ _ c (hcols0 ▸ hc)
  have hpdstd : "parsed_dict" ∈ stdKeys fk := by
    rw [stdKeys]
    exact List.mem_append_right _ (by simp)
  have hfkstd : fk ∈ stdKeys fk := by
    rw [stdKeys]
    exact List.mem_append_right _ (by simp)
  have hidstd : "image_description" ∈ stdKeys fk := by
    rw [stdKeys]
    refine List.mem_append_left _ ?_
    decide
  have hNmem_amk : ∀ k ∈ allMetaKeys rs,
      k ∈ ((allMetaKeys rs).foldl (addColStep fk) (frameOfRecords rs)).cols := by
    intro k hk
    by_cases hres : k = fk ∨ k = "parsed_dict" ∨ k = "image_description"
    · rcases hres with rfl | rfl | rfl
      · exact hNmem_std _ hfkstd
      · exact hNmem_std _ hpdstd
      · exact hNmem_std _ hidstd
    · exact addfold_mem_of_meta fk _ _ k hk hres
  have hNsub : ∀ c ∈
      ((allMetaKeys rs).foldl (addColStep fk) (frameOfRecords rs)).cols,
      c ∈ stdKeys fk ∨ c ∈ allMetaKeys rs := by
    intro c hc
    rcases addfold_cols_sub _ _ _ c hc with h | h
    · exact Or.inl (hcols0 ▸ h)
    · exact Or.inr h
  obtain ⟨hp1, hp2, hp3⟩ :=
    popFrameFresh_spec ((allMetaKeys rs).foldl (addColStep fk) (frameOfRecords rs))
  have hdrop : freshBuild fk (allMetaKeys rs) rs =
      (popFrameFresh
        ((allMetaKeys rs).foldl (addColStep fk) (frameOfRecords rs))).dropCol
        "parsed_dict" := by
    unfold freshBuild dropParsed
    rw [if_pos]
    exact List.elem_iff.mpr (hp1 ▸ hNmem_std _ hpdstd)
  rw [hdrop]
  simp only [Frame.dropCol]
  refine ⟨?_, ?_, ?_, ?_, ?_, ?_, ?_⟩
  · exact List.Nodup.filter _ (hp1 ▸ hNnodup)
  · intro hmem
    have := (List.mem_filter.mp hmem).2
    simp at this
  · intro c hc
    exact hNsub c (hp1 ▸ (List.mem_filter.mp hc).1)
  · intro c hc hcne
    refine List.mem_filter.mpr ⟨hp1 ▸ hNmem_std c hc, by simp [hcne]⟩
  · intro k hk hkne
    refine List.mem_filter.mpr ⟨hp1 ▸ hNmem_amk k hk, by simp [hkne]⟩
  · rw [List.length_map, hp2, hNlen]
  · intro i hi c hcne
    have hiN : i < (popFrameFresh
        ((allMetaKeys rs).foldl (addColStep fk) (frameOfRecords rs))).rows.length := by
      rw [hp2, hNlen]
      exact hi
    rw [getD_map_row _ _ _ hiN, getC_filter_ne _ _ _ hcne,
      hp3 i (by rw [hNlen]; exact hi)]
    have hpdcell : pdOf (((allMetaKeys rs).foldl (addColStep fk)
        (frameOfRecords rs)).rows.getD i []) = pdOf (rs.getD i []) := by
      unfold pdOf
      rw [ha3 i "parsed_dict"]
      rfl
    rw [getC_popRow, hpdcell]
    have hrmem : rs.getD i [] ∈ rs := by
      rw [List.getD_eq_getElem _ _ (by simpa using hi)]
      exact List.getElem_mem _
    have hfcongr : (pdOf (rs.getD i [])).reverse.find?
        (fun kv => (if (((allMetaKeys rs).foldl (addColStep fk)
            (frameOfRecords rs)).cols.contains kv.1) then some kv.1
          else none) == some c)
        = (pdOf (rs.getD i [])).reverse.find? (fun kv => kv.1 == c) := by
      refine find?_congr_mem _ _ _ ?_
      intro kv hkv
      have hkmem : kv.1 ∈ allMetaKeys rs :=
        pdKey_mem_amk rs _ hrmem kv.1
          (List.mem_map.mpr ⟨kv, List.mem_reverse.mp hkv, rfl⟩)
      rw [if_pos (List.elem_iff.mpr (hNmem_amk kv.1 hkmem))]
      rfl
    rw [hfcongr]
    unfold resolveCell
    cases hfind : (pdOf (rs.getD i [])).reverse.find? (fun kv => kv.1 == c) with
    | some kv => rfl
    | none =>
      show getC _ c = getC (rs.getD i []) c
      exact ha3 i c

theorem freshBuild_cols_lower (fk : String) (rs : List Record)
    (hfk1 : lowerStr fk = fk) (hfkb : fk ∉ baseKeys)
    (hfkp : fk ≠ "parsed_dict") (hwf : ∀ r ∈ rs, wfRecord fk r = true)
    (hne : rs ≠ []) :
    ∀ c ∈ (freshBuild fk (allMetaKeys rs) rs).cols, lowerStr c = c := by
  intro c hc
  rcases (freshBuild_spec fk rs hfkb hfkp hwf hne).2.2.1 c hc with h | h
  · rw [stdKeys] at h
    rcases List.mem_append.mp h with h2 | h2
    · have hbase : ∀ c1 ∈ baseKeys, lowerStr c1 = c1 := by decide
      exact hbase c h2
    · rcases List.mem_cons.mp h2 with rfl | h3
      · exact hfk1
      · rw [List.mem_singleton] at h3
        subst h3
        decide
  · exact (amk_props fk rs hwf c h).1

theorem reconcile_id (fk : String) (f : Frame) (hin : fk ∈ f.cols)
    (hnov : f.cols.filter (fun c => isVariant fk c) = []) :
    reconcile fk f = (f, f.cols) := by
  rcases reconcile_shape fk f with ⟨_, hr⟩ | ⟨_, _, hr⟩ | ⟨hnin, _, _⟩
  · rw [hr, hnov]
    rfl
  · exact hr
  · exact absurd hin hnin

theorem frame_isEmpty_false (f : Frame) (hr : f.rows ≠ [])
    (hc : f.cols ≠ []) : f.isEmpty = false := by
  unfold Frame.isEmpty
  rw [List.isEmpty_eq_false.mpr hr, List.isEmpty_eq_false.mpr hc]
  rfl

theorem lower_cols_no_variant (fk : String) (cs : List String)
    (hlow : ∀ c ∈ cs, lowerStr c = c) :
    cs.filter (fun c => isVariant fk c) = [] := by
  rw [List.filter_eq_nil_iff]
  intro c hc hv
  obtain ⟨h1, h2⟩ := (isVariant_iff fk c).mp hv
  exact h2 ((hlow c hc) ▸ h1)

theorem check_none_of_meta_present (fk : String) (ecols : List String)
    (amk : List String)
    (hmem : ∀ k ∈ amk,
      ¬(k = fk ∨ k = "parsed_dict" ∨ k = "image_description") → k ∈ ecols) :
    amk.find? (fun k => isOffending fk ecols k) = none := by
  rw [List.find?_eq_none]
  intro k hk
  intro hoff
  unfold isOffending at hoff
  rw [Bool.and_eq_true, Bool.not_eq_true', Bool.not_eq_true'] at hoff
  obtain ⟨h1, h2⟩ := hoff
  rw [Bool.or_eq_false_iff, Bool.or_eq_false_iff] at h1
  have hres : ¬(k = fk ∨ k = "parsed_dict" ∨ k = "image_description") := by
    rintro (rfl | rfl | rfl)
    · simp at h1
    · simp at h1
    · simp at h1
  have hkcol := hmem k hk hres
  have : (ecols.map lowerStr).contains (lowerStr k) = true :=
    List.elem_iff.mpr (List.mem_map.mpr ⟨k, hkcol, rfl⟩)
  rw [this] at h2
  cases h2

theorem dictLookup_foldl_insert_self (cs : List String) :
    ∀ (m0 : List (String × String)) (k : String),
    (∀ c ∈ cs, lowerStr c = c) →
    dictLookup (cs.foldl (fun m c => dictInsert m (lowerStr c) c) m0) k
      = if k ∈ cs then some k else dictLookup m0 k := by
  induction cs with
  | nil =>
    intro m0 k _
    simp
  | cons a l ih =>
    intro m0 k hlow
    rw [List.foldl_cons,
      ih _ k (fun c hc => hlow c (List.mem_cons_of_mem a hc)),
      hlow a (List.mem_cons_self a l)]
    by_cases hkl : k ∈ l
    · simp [hkl, List.mem_cons, Or.inr hkl]
    · rw [if_neg hkl, dictLookup_dictInsert]
      by_cases hka : k = a
      · subst hka
        simp [List.mem_cons]
      · simp [List.mem_cons, hka, hkl]

theorem dictLookup_lowerMap (ecols : List String)
    (hlow : ∀ c ∈ ecols, lowerStr c = c) (k : String) :
    dictLookup (lowerMap ecols) k = if k ∈ ecols then some k else none := by
  unfold lowerMap
  rw [dictLookup_foldl_insert_self ecols [] k hlow]
  rfl

theorem resolveCell_fname (fk : String) (r : Record)
    (hwfr : wfRecord fk r = true) :
    resolveCell r "filename" = getC r "filename" := by
  unfold resolveCell
  cases hfind : (pdOf r).reverse.find? (fun kv => kv.1 == "filename") with
  | none => rfl
  | some kv =>
    exfalso
    have hmem := List.mem_reverse.mp (List.mem_of_find?_eq_some hfind)
    have hp := List.find?_some hfind
    exact (wfRecord_pd fk r hwfr kv hmem).2 (beq_iff_eq.mp hp)

theorem values_dictInsert {α : Type} (m : List (String × α)) (k : String)
    (v : α) (x : α) (hx : x ∈ (dictInsert m k v).map Prod.snd) :
    x ∈ m.map Prod.snd ∨ x = v := by
  induction m with
  | nil =>
    simp only [dictInsert, List.map_cons, List.map_nil,
      List.mem_singleton] at hx
    exact Or.inr hx
  | cons a m ih =>
    obtain ⟨k1, v1⟩ := a
    by_cases h : k1 = k
    · simp only [dictInsert, if_pos h, List.map_cons, List.mem_cons] at hx
      rcases hx with rfl | hx
      · exact Or.inr rfl
      · exact Or.inl (List.mem_cons_of_mem _ hx)
    · simp only [dictInsert, if_neg h, List.map_cons, List.mem_cons] at hx
      rcases hx with rfl | hx
      · exact Or.inl (List.mem_cons_self _ _)
      · rcases ih hx with h2 | h2
        · exact Or.inl (List.mem_cons_of_mem _ h2)
        · exact Or.inr h2

theorem lowerMap_values (ecols : List String) :
    ∀ v ∈ (lowerMap ecols).map Prod.snd, v ∈ ecols := by
  unfold lowerMap
  suffices h : ∀ (cs : List String) (m0 : List (String × String)) (v : String),
      v ∈ (cs.foldl (fun m c => dictInsert m (lowerStr c) c) m0).map Prod.snd →
      v ∈ m0.map Prod.snd ∨ v ∈ cs by
    intro v hv
    rcases h ecols [] v hv with h2 | h2
    · cases h2
    · exact h2
  intro cs
  induction cs with
  | nil =>
    intro m0 v hv
    exact Or.inl hv
  | cons a l ih =>
    intro m0 v hv
    rw [List.foldl_cons] at hv
    rcases ih _ v hv with h2 | h2
    · rcases values_dictInsert m0 (lowerStr a) a v h2 with h3 | h3
      · exact Or.inl h3
      · exact Or.inr (h3 ▸ List.mem_cons_self _ _)
    · exact Or.inr (List.mem_cons_of_mem _ h2)

theorem knownBuild_spec (fk : String) (rs : List Record) (ecols : List String)
    (hlow : ∀ c ∈ ecols, lowerStr c = c)
    (hpdn : "parsed_dict" ∉ ecols)
    (hmemk : ∀ k ∈ allMetaKeys rs, k ≠ "parsed_dict" → k ∈ ecols)
    (hfkb : fk ∉ baseKeys) (hfkp : fk ≠ "parsed_dict")
    (hwf : ∀ r ∈ rs, wfRecord fk r = true) (hne : rs ≠ []) :
    (∀ c ∈ (knownBuild ecols rs).cols,
        (c ∈ stdKeys fk ∧ c ≠ "parsed_dict") ∨ c ∈ ecols)
    ∧ (knownBuild ecols rs).rows.length = rs.length
    ∧ ∀ i, i < rs.length → ∀ c, c ≠ "parsed_dict" →
        getC ((knownBuild ecols rs).rows.getD i []) c
          = resolveCell (rs.getD i []) c := by
  have hnd0 := stdKeys_nodup fk hfkb hfkp
  have hkeys : ∀ r ∈ rs, r.map Prod.fst = stdKeys fk :=
    fun r hr => wfRecord_keys fk r (hwf r hr)
  have hcols0 : (frameOfRecords rs).cols = stdKeys fk :=
    cols_frameOfRecords fk rs hne hkeys hnd0
  obtain ⟨hk1, hk2, hk3⟩ := popFrameKnown_spec (lowerMap ecols)
    (frameOfRecords rs)
  have hcolsub : ∀ c ∈ (popFrameKnown (lowerMap ecols)
      (frameOfRecords rs)).cols, (c ∈ stdKeys fk) ∨ c ∈ ecols := by
    intro c hc
    rcases hk1 c hc with h | h
    · exact Or.inl (hcols0 ▸ h)
    · exact Or.inr (lowerMap_values ecols c h)
  have hlen : (popFrameKnown (lowerMap ecols)
      (frameOfRecords rs)).rows.length = rs.length := hk2
  have hval : ∀ i, i < rs.length → ∀ c, c ≠ "parsed_dict" →
      getC ((popFrameKnown (lowerMap ecols)
        (frameOfRecords rs)).rows.getD i []) c
        = resolveCell (rs.getD i []) c := by
    intro i hi c hcne
    rw [hk3 i hi]
    show getC (popRow _ (pdOf (rs.getD i [])) (rs.getD i [])) c = _
    rw [getC_popRow]
    have hrmem : rs.getD i [] ∈ rs := by
      rw [List.getD_eq_getElem _ _ (by simpa using hi)]
      exact List.getElem_mem _
    have hfcongr : (pdOf (rs.getD i [])).reverse.find?
        (fun kv => dictLookup (lowerMap ecols) (lowerStr kv.1) == some c)
        = (pdOf (rs.getD i [])).reverse.find? (fun kv => kv.1 == c) := by
      refine find?_congr_mem _ _ _ ?_
      intro kv hkv
      have hkvpd := wfRecord_pd fk _ (hwf _ hrmem) kv
        (List.mem_reverse.mp hkv)
      rw [hkvpd.1, dictLookup_lowerMap ecols hlow kv.1]
      by_cases hke : kv.1 ∈ ecols
      · rw [if_pos hke]
        rfl
      · rw [if_neg hke]
        have hkamk : kv.1 ∈ allMetaKeys rs :=
          pdKey_mem_amk rs _ hrmem kv.1
            (List.mem_map.mpr ⟨kv, List.mem_reverse.mp hkv, rfl⟩)
        have hkpd : kv.1 = "parsed_dict" := by
          by_contra hne2
          exact hke (hmemk kv.1 hkamk hne2)
        rw [hkpd]
        have : ("parsed_dict" == c) = false :=
          beq_eq_false_iff_ne.mpr (fun hh => hcne hh.symm)
        rw [this]
        rfl
    rw [hfcongr]
    unfold resolveCell
    cases hfind : (pdOf (rs.getD i [])).reverse.find?
        (fun kv => kv.1 == c) with
    | some kv => rfl
    | none => rfl
  unfold knownBuild dropParsed
  by_cases hct : (popFrameKnown (lowerMap ecols)
      (frameOfRecords rs)).cols.contains "parsed_dict"
  · rw [if_pos hct]
    simp only [Frame.dropCol]
    refine ⟨?_, ?_, ?_⟩
    · intro c hc
      obtain ⟨hc1, hc2⟩ := List.mem_filter.mp hc
      have hcne : c ≠ "parsed_dict" := by simpa using hc2
      rcases hcolsub c hc1 with h | h
      · exact Or.inl ⟨h, hcne⟩
      · exact Or.inr h
    · rw [List.length_map, hlen]
    · intro i hi c hcne
      have hiN : i < (popFrameKnown (lowerMap ecols)
          (frameOfRecords rs)).rows.length := by
        rw [hlen]
        exact hi
      rw [getD_map_row _ _ _ hiN, getC_filter_ne _ _ _ hcne]
      exact hval i hi c hcne
  · rw [if_neg hct]
    refine ⟨?_, hlen, hval⟩
    intro c hc
    have hcne : c ≠ "parsed_dict" := by
      rintro rfl
      exact hct (List.elem_iff.mpr hc)
    rcases hcolsub c hc with h | h
    · exact Or.inl ⟨h, hcne⟩
    · exact Or.inr h

theorem cellEq_eq_false_of_ne (a b : Cell) (h : a ≠ b) :
    cellEq a b = false := by
  cases a with
  | none => rfl
  | some x =>
    cases b with
    | none => rfl
    | some y =>
      simp only [cellEq, decide_eq_false_iff_not]
      intro hh
      exact h (by rw [hh])

theorem map_id_of_eq {α : Type} (l : List α) (f : α → α)
    (h : ∀ a ∈ l, f a = a) : l.map f = l := by
  induction l with
  | nil => rfl
  | cons a l ih =>
    rw [List.map_cons, h a (List.mem_cons_self a l),
      ih (fun x hx => h x (List.mem_cons_of_mem a hx))]

theorem getC_reindexRow (cs : List String) (r : Row) (c : String)
    (hc : c ∈ cs) :
    getC (cs.map (fun c2 => (c2, getC r c2))) c = getC r c := by
  have h := dictLookup_map_self cs (fun x => getC r x) c hc
  simp only [getC] at h ⊢
  rw [h]
  rfl

/-- The upsert loop on an aligned pair of row lists (same length, equal
filename cells position by position, all filenames present and pairwise
distinct, and a prefix of rows matching no incoming filename) replaces
each row in place. -/
theorem upsert_aligned (all_cols : List String)
    (hfc : "filename" ∈ all_cols) :
    ∀ (ns pre ex : List Row),
    ex.length = ns.length →
    (∀ i, i < ns.length →
      getC (ex.getD i []) "filename" = getC (ns.getD i []) "filename") →
    (∀ i, i < ns.length → ∃ v, getC (ns.getD i []) "filename" = some v) →
    (∀ i j, i < j → j < ns.length →
      getC (ns.getD i []) "filename" ≠ getC (ns.getD j []) "filename") →
    (∀ p ∈ pre, ∀ i, i < ns.length →
      cellEq (getC p "filename") (getC (ns.getD i []) "filename") = false) →
    upsertRows all_cols (pre ++ ex) ns
      = pre ++ List.zipWith (fun o n => replaceRow all_cols o n) ex ns := by
  intro ns
  induction ns with
  | nil =>
    intro pre ex hlen _ _ _ _
    have hex : ex = [] := List.length_eq_zero.mp (by simpa using hlen)
    subst hex
    simp [upsertRows]
  | cons n ns ih =>
    intro pre ex hlen halign hsome hdist hpre
    cases ex with
    | nil => simp at hlen
    | cons e ex =>
      have hlen2 : ex.length = ns.length := by simpa using hlen
      obtain ⟨v, hv⟩ := hsome 0 (Nat.succ_pos _)
      rw [List.getD_cons_zero] at hv
      have hefn : getC e "filename" = getC n "filename" := by
        have := halign 0 (Nat.succ_pos _)
        simpa using this
      have heEq : cellEq (getC e "filename") (getC n "filename") = true := by
        rw [hefn, hv]
        simp [cellEq]
      have hstep : upsertStep all_cols (pre ++ e :: ex) n
          = (pre ++ [replaceRow all_cols e n]) ++ ex := by
        unfold upsertStep
        have hany : (pre ++ e :: ex).any
            (fun r => cellEq (getC r "filename") (getC n "filename"))
            = true := by
          refine List.any_eq_true.mpr ⟨e, ?_, heEq⟩
          exact List.mem_append_right _ (List.mem_cons_self _ _)
        rw [if_pos hany, List.map_append, List.map_cons, heEq]
        have hpremap : pre.map (fun r =>
            if cellEq (getC r "filename") (getC n "filename") then
              replaceRow all_cols r n else r) = pre := by
          refine map_id_of_eq pre _ ?_
          intro p hp
          have h0 := hpre p hp 0 (Nat.succ_pos _)
          rw [List.getD_cons_zero] at h0
          rw [h0]
          rfl
        have hexmap : ex.map (fun r =>
            if cellEq (getC r "filename") (getC n "filename") then
              replaceRow all_cols r n else r) = ex := by
          refine map_id_of_eq ex _ ?_
          intro r hr
          obtain ⟨j, hj, hrj⟩ := List.mem_iff_getElem.mp hr
          have hrfn : getC r "filename"
              = getC (ns.getD j []) "filename" := by
            have := halign (j + 1) (by rw [List.length_cons]; omega)
            rw [List.getD_cons_succ, List.getD_cons_succ,
              List.getD_eq_getElem _ _ hj, hrj] at this
            exact this
          have hne2 : getC (ns.getD j []) "filename"
              ≠ getC n "filename" := by
            have := hdist 0 (j + 1) (Nat.succ_pos _) (by rw [List.length_cons]; omega)
            rw [List.getD_cons_zero, List.getD_cons_succ] at this
            exact fun hh => this hh.symm
          rw [cellEq_eq_false_of_ne _ _ (hrfn ▸ hne2)]
          rfl
        rw [hpremap, hexmap]
        simp
      show List.foldl (upsertStep all_cols) _ _ = _
      rw [List.foldl_cons, hstep]
      have hih := ih (pre ++ [replaceRow all_cols e n]) ex hlen2
        (fun i hi => by
          have := halign (i + 1) (by rw [List.length_cons]; omega)
          rwa [List.getD_cons_succ, List.getD_cons_succ] at this)
        (fun i hi => by
          have := hsome (i + 1) (by rw [List.length_cons]; omega)
          rwa [List.getD_cons_succ] at this)
        (fun i j hij hj => by
          have := hdist (i + 1) (j + 1) (by omega) (by rw [List.length_cons]; omega)
          rwa [List.getD_cons_succ, List.getD_cons_succ] at this)
        (fun p hp i hi => by
          rcases List.mem_append.mp hp with hp2 | hp2
          · have := hpre p hp2 (i + 1) (by rw [List.length_cons]; omega)
            rwa [List.getD_cons_succ] at this
          · rw [List.mem_singleton] at hp2
            subst hp2
            rw [fname_replaceRow all_cols e n hfc, hefn]
            refine cellEq_eq_false_of_ne _ _ ?_
            have := hdist 0 (i + 1) (Nat.succ_pos _) (by rw [List.length_cons]; omega)
            rw [List.getD_cons_zero, List.getD_cons_succ] at this
            exact this)
      show upsertRows all_cols ((pre ++ [replaceRow all_cols e n]) ++ ex) ns
          = _
      rw [hih, List.zipWith_cons_cons, List.append_assoc]
      rfl

theorem pruneRows_keep_all (rows : List Row) (fns : List Cell)
    (h : ∀ r ∈ rows, ∃ c ∈ fns, cellEq (getC r "filename") c = true) :
    pruneRows rows fns = rows := by
  unfold pruneRows
  rw [List.filter_eq_self]
  intro r hr
  obtain ⟨c, hc, hcc⟩ := h r hr
  exact List.any_eq_true.mpr ⟨c, hc, hcc⟩

theorem getD_zipWith_row (f : Row → Row → Row) :
    ∀ (as bs : List Row) (i : Nat), i < as.length → i < bs.length →
    (List.zipWith f as bs).getD i [] = f (as.getD i []) (bs.getD i []) := by
  intro as
  induction as with
  | nil =>
    intro bs i hi _
    cases hi
  | cons a as ih =>
    intro bs i hi hib
    cases bs with
    | nil => cases hib
    | cons b bs =>
      cases i with
      | zero => rfl
      | succ i =>
        rw [List.zipWith_cons_cons, List.getD_cons_succ, List.getD_cons_succ,
          List.getD_cons_succ]
        exact ih bs i (by simpa using hi) (by simpa using hib)

/-- The whole merge of an existing frame with an aligned incoming frame
whose columns are covered by the existing ones: every row is replaced in
place, nothing is appended and nothing is pruned. -/
theorem merge_aligned (F1 newC : Frame)
    (hnd : F1.cols.Nodup)
    (hsubC : ∀ c ∈ newC.cols, c ∈ F1.cols)
    (hfncol : "filename" ∈ F1.cols)
    (hlenE : F1.rows.length = newC.rows.length)
    (halign : ∀ i, i < newC.rows.length →
      getC (F1.rows.getD i []) "filename"
        = getC (newC.rows.getD i []) "filename")
    (hsome : ∀ i, i < newC.rows.length →
      ∃ v, getC (newC.rows.getD i []) "filename" = some v)
    (hdist : ∀ i j, i < j → j < newC.rows.length →
      getC (newC.rows.getD i []) "filename"
        ≠ getC (newC.rows.getD j []) "filename") :
    (mergeFrames F1 newC).cols = F1.cols
    ∧ (mergeFrames F1 newC).rows.length = newC.rows.length
    ∧ ∀ i, i < newC.rows.length → ∀ c ∈ F1.cols,
        getC ((mergeFrames F1 newC).rows.getD i []) c
          = if c = "filename" then getC (F1.rows.getD i []) "filename"
            else getC (newC.rows.getD i []) c := by
  have hall : dedupFirst (F1.cols ++ newC.cols) = F1.cols :=
    dedupFirst_append_eq _ _ hnd hsubC
  have hexD : ∀ i, i < F1.rows.length →
      (F1.rows.map (fun r => F1.cols.map (fun c => (c, getC r c)))).getD i []
        = F1.cols.map (fun c => (c, getC (F1.rows.getD i []) c)) :=
    fun i hi => getD_map_row _ _ _ hi
  have hnsD : ∀ i, i < newC.rows.length →
      (newC.rows.map (fun r => F1.cols.map (fun c => (c, getC r c)))).getD i []
        = F1.cols.map (fun c => (c, getC (newC.rows.getD i []) c)) :=
    fun i hi => getD_map_row _ _ _ hi
  have hexlen : (F1.rows.map
      (fun r => F1.cols.map (fun c => (c, getC r c)))).length
      = newC.rows.length := by rw [List.length_map, hlenE]
  have hnslen : (newC.rows.map
      (fun r => F1.cols.map (fun c => (c, getC r c)))).length
      = newC.rows.length := by rw [List.length_map]
  have hups := upsert_aligned F1.cols hfncol
    (newC.rows.map (fun r => F1.cols.map (fun c => (c, getC r c)))) []
    (F1.rows.map (fun r => F1.cols.map (fun c => (c, getC r c))))
    (by rw [hexlen, hnslen])
    (fun i hi => by
      rw [hnslen] at hi
      rw [hexD i (hlenE ▸ hi), hnsD i hi,
        getC_reindexRow _ _ _ hfncol, getC_reindexRow _ _ _ hfncol]
      exact halign i hi)
    (fun i hi => by
      rw [hnslen] at hi
      rw [hnsD i hi, getC_reindexRow _ _ _ hfncol]
      exact hsome i hi)
    (fun i j hij hj => by
      rw [hnslen] at hj
      rw [hnsD i (Nat.lt_trans hij hj), hnsD j hj,
        getC_reindexRow _ _ _ hfncol, getC_reindexRow _ _ _ hfncol]
      exact hdist i j hij hj)
    (fun p hp => absurd hp (List.not_mem_nil p))
  rw [List.nil_append, List.nil_append] at hups
  have hzlen : (List.zipWith (fun o n => replaceRow F1.cols o n)
      (F1.rows.map (fun r => F1.cols.map (fun c => (c, getC r c))))
      (newC.rows.map (fun r => F1.cols.map (fun c => (c, getC r c))))).length
      = newC.rows.length := by
    rw [List.length_zipWith, hexlen, hnslen, Nat.min_self]
  have hzD : ∀ i, i < newC.rows.length →
      (List.zipWith (fun o n => replaceRow F1.cols o n)
        (F1.rows.map (fun r => F1.cols.map (fun c => (c, getC r c))))
        (newC.rows.map (fun r => F1.cols.map (fun c => (c, getC r c))))).getD
          i []
        = replaceRow F1.cols
            (F1.cols.map (fun c => (c, getC (F1.rows.getD i []) c)))
            (F1.cols.map (fun c => (c, getC (newC.rows.getD i []) c))) := by
    intro i hi
    rw [getD_zipWith_row _ _ _ i (hexlen ▸ hi) (hnslen ▸ hi),
      hexD i (hlenE ▸ hi), hnsD i hi]
  have hprune : pruneRows
      (List.zipWith (fun o n => replaceRow F1.cols o n)
        (F1.rows.map (fun r => F1.cols.map (fun c => (c, getC r c))))
        (newC.rows.map (fun r => F1.cols.map (fun c => (c, getC r c)))))
      ((newC.rows.map
        (fun r => F1.cols.map (fun c => (c, getC r c)))).map
        (fun r => getC r "filename"))
      = List.zipWith (fun o n => replaceRow F1.cols o n)
        (F1.rows.map (fun r => F1.cols.map (fun c => (c, getC r c))))
        (newC.rows.map (fun r => F1.cols.map (fun c => (c, getC r c)))) := by
    refine pruneRows_keep_all _ _ ?_
    intro r hr
    obtain ⟨i, hiz, hri⟩ := List.mem_iff_getElem.mp hr
    have hi : i < newC.rows.length := by rw [← hzlen]; exact hiz
    have hr2 : r = replaceRow F1.cols
        (F1.cols.map (fun c => (c, getC (F1.rows.getD i []) c)))
        (F1.cols.map (fun c => (c, getC (newC.rows.getD i []) c))) := by
      rw [← hri, ← List.getD_eq_getElem _ _ hiz, hzD i hi]
    obtain ⟨v, hv⟩ := hsome i hi
    refine ⟨getC ((newC.rows.map
        (fun r2 => F1.cols.map (fun c => (c, getC r2 c)))).getD i [])
        "filename", ?_, ?_⟩
    · refine List.mem_map.mpr ⟨_, ?_, rfl⟩
      rw [List.getD_eq_getElem _ _ (hnslen ▸ hi)]
      exact List.getElem_mem _
    · rw [hnsD i hi, getC_reindexRow _ _ _ hfncol, hr2,
        fname_replaceRow _ _ _ hfncol, getC_reindexRow _ _ _ hfncol,
        halign i hi, hv]
      simp [cellEq]
  have hframe : mergeFrames F1 newC
      = { cols := F1.cols,
          rows := List.zipWith (fun o n => replaceRow F1.cols o n)
            (F1.rows.map (fun r => F1.cols.map (fun c => (c, getC r c))))
            (newC.rows.map
              (fun r => F1.cols.map (fun c => (c, getC r c)))) } := by
    simp only [mergeFrames, Frame.reindex, hall]
    rw [hups, hprune]
  rw [hframe]
  refine ⟨rfl, hzlen, ?_⟩
  intro i hi c hc
  show getC ((List.zipWith _ _ _).getD i []) c = _
  rw [hzD i hi, getC_replaceRow _ _ _ c hc]
  by_cases hcf : c = "filename"
  · rw [if_pos hcf, if_pos hcf, hcf, getC_reindexRow _ _ _ hfncol]
  · rw [if_neg hcf, if_neg hcf, getC_reindexRow _ _ _ hc]

/-- Claim C5 (amended): per-group idempotence holds for a group first
created by the run, provided the group key is lowercase, non-reserved,
every record is well-formed, and the batch filenames are pairwise
distinct (as a record's filename cell) — in particular no metadata key
spelled `filename` overwrites the identity column.  The second run over
the unchanged batch routes every metadata key to an existing column,
replaces every row in place and prunes nothing: same columns, same row
count, identical field values. -/
theorem pipeline_idempotent_amended (fk gpath : String) (rs : List Record)
    (hfk1 : lowerStr fk = fk) (hfkb : fk ∉ baseKeys)
    (hfkp : fk ≠ "parsed_dict")
    (hwf : ∀ r ∈ rs, wfRecord fk r = true)
    (hdist : ∀ j, j < rs.length → ∀ i, i < j →
      getC (rs.getD i []) "filename" ≠ getC (rs.getD j []) "filename")
    (hne : rs ≠ []) :
    ∃ F1 F2,
      processGroup fk gpath none rs = .ok F1
      ∧ processGroup fk gpath (some F1) rs = .ok F2
      ∧ F2.cols = F1.cols
      ∧ F2.rows.length = F1.rows.length
      ∧ ∀ i, i < F1.rows.length → ∀ c ∈ F1.cols,
          getC (F2.rows.getD i []) c = getC (F1.rows.getD i []) c := by
  obtain ⟨hnd, hnpd, hsub, hstd, hamk, hlen1, hval1⟩ :=
    freshBuild_spec fk rs hfkb hfkp hwf hne
  have hlow := freshBuild_cols_lower fk rs hfk1 hfkb hfkp hwf hne
  set A : Frame := freshBuild fk (allMetaKeys rs) rs with hA
  have hfkstd : fk ∈ stdKeys fk := by
    rw [stdKeys]
    exact List.mem_append_right _ (by simp)
  have hfnstd : "filename" ∈ stdKeys fk := by
    rw [stdKeys]
    exact List.mem_append_left _ (by decide)
  have hfkcol : fk ∈ A.cols := hstd fk hfkstd hfkp
  have hfncol : "filename" ∈ A.cols := hstd _ hfnstd (by decide)
  have hrsne : rs.length ≠ 0 := fun h => hne (List.length_eq_zero.mp h)
  have hrowsne : A.rows ≠ [] := by
    intro h
    rw [h] at hlen1
    exact hrsne (by simpa using hlen1.symm)
  have hcolsne : A.cols ≠ [] := by
    intro h
    rw [h] at hfkcol
    exact List.not_mem_nil _ hfkcol
  have hnov := lower_cols_no_variant fk A.cols hlow
  have hrecid := reconcile_id fk A hfkcol hnov
  have hempty : A.isEmpty = false := frame_isEmpty_false A hrowsne hcolsne
  have hchk : (allMetaKeys rs).find? (fun k => isOffending fk A.cols k)
      = none :=
    check_none_of_meta_present fk A.cols (allMetaKeys rs)
      (fun k hk hres => hamk k hk (fun hpd => hres (Or.inr (Or.inl hpd))))
  have hrun2 : processGroup fk gpath (some A) rs
      = .ok (mergeFrames A (knownBuild A.cols rs)) := by
    unfold processGroup reconcileStep
    simp only [hrecid, hempty, Bool.false_eq_true, if_false, hchk]
  obtain ⟨hc2, hlen2, hval2⟩ :=
    knownBuild_spec fk rs A.cols hlow hnpd hamk hfkb hfkp hwf hne
  set B : Frame := knownBuild A.cols rs with hB
  have hsubC : ∀ c ∈ B.cols, c ∈ A.cols := by
    intro c hc
    rcases hc2 c hc with ⟨h1, h2⟩ | h1
    · exact hstd c h1 h2
    · exact h1
  have hrsmem : ∀ i, i < rs.length → rs.getD i [] ∈ rs := by
    intro i hi
    rw [List.getD_eq_getElem _ _ hi]
    exact List.getElem_mem _
  have hAfn : ∀ i, i < rs.length →
      getC (A.rows.getD i []) "filename" = getC (rs.getD i []) "filename" := by
    intro i hi
    rw [hval1 i hi "filename" (by decide),
      resolveCell_fname fk _ (hwf _ (hrsmem i hi))]
  have hBfn : ∀ i, i < rs.length →
      getC (B.rows.getD i []) "filename" = getC (rs.getD i []) "filename" := by
    intro i hi
    rw [hval2 i hi "filename" (by decide),
      resolveCell_fname fk _ (hwf _ (hrsmem i hi))]
  have hlenB : B.rows.length = rs.length := hlen2
  obtain ⟨hm1, hm2, hm3⟩ := merge_aligned A B hnd hsubC hfncol
    (by rw [hlen1, hlenB])
    (fun i hi => by
      rw [hlenB] at hi
      rw [hAfn i hi, hBfn i hi])
    (fun i hi => by
      rw [hlenB] at hi
      obtain ⟨s, hs⟩ := wfRecord_fname fk _ (hwf _ (hrsmem i hi))
      exact ⟨.str s, by rw [hBfn i hi, hs]⟩)
    (fun i j hij hj => by
      rw [hlenB] at hj
      rw [hBfn i (Nat.lt_trans hij hj), hBfn j hj]
      exact hdist j hj i hij)
  refine ⟨A, mergeFrames A B, by rw [hA]; rfl, hrun2, hm1, ?_, ?_⟩
  · rw [hm2, hlenB, hlen1]
  · intro i hi c hc
    have hi2 : i < rs.length := hlen1 ▸ hi
    have hmv := hm3 i (by rw [hlenB]; exact hi2) c hc
    rw [hmv]
    by_cases hcf : c = "filename"
    · rw [if_pos hcf, hcf]
    · rw [if_neg hcf]
      have hcne : c ≠ "parsed_dict" := fun h => hnpd (h ▸ hc)
      rw [hval2 i hi2 c hcne, ← hval1 i hi2 c hcne]

/-- Witness batch for the amended C5: one well-formed record for group
key `f`. -/
def c5wRec : Record :=
  [("filename", some (.str "a.jpg")), ("latitude", some (.num 1)),
   ("longitude", some (.num 2)), ("altitude", none),
   ("image_description", some (.str "f-g")), ("create_date", none),
   ("orientation", none), ("geometry", some (.pt 2 1 none)),
   ("f", some (.str "g")), ("parsed_dict", some (.dict [("f", "g")]))]

theorem pipeline_idempotent_amended_witness :
    ∃ F1 F2,
      processGroup "f" "/out/w/w.gpkg" none [c5wRec] = .ok F1
      ∧ processGroup "f" "/out/w/w.gpkg" (some F1) [c5wRec] = .ok F2
      ∧ F2.cols = F1.cols
      ∧ F2.rows.length = F1.rows.length
      ∧ ∀ i, i < F1.rows.length → ∀ c ∈ F1.cols,
          getC (F2.rows.getD i []) c = getC (F1.rows.getD i []) c :=
  pipeline_idempotent_amended "f" "/out/w/w.gpkg" [c5wRec] (by decide)
    (by decide) (by decide) (by decide) (by decide) (by decide)

/-- Claim C5 as stated is false on the code: a batch whose parsed
metadata carries a key literally spelled `filename` overwrites the
identity column during populate, so the second run of the unchanged
batch upserts every row onto every other row.  Both runs finish without
error and agree on the row count, yet the `lat` value of the first row
differs between the two resulting stores. -/
theorem pipeline_idempotent_counterexample :
    (runPipeline "/out" "F" none ce5photos []).2 = none
    ∧ (runPipeline "/out" "F" none ce5photos ce5S1).2 = none
    ∧ ce5F2.rows.length = ce5F1.rows.length
    ∧ getC (ce5F2.rows.getD 0 []) "lat"
        ≠ getC (ce5F1.rows.getD 0 []) "lat" := by
  decide
